import Mathlib

/-!
Verification of the memoni selection transfer engine.

This file gives a shallow embedding of the parts of the program relevant to
the frozen claims, translated from the Rust sources:

* `src/utils.rs`        — MIME scoring helpers
* `src/selection.rs`    — capture finalization (`process_selection_data`),
                          MIME filtering (`filter_mimes`), content hashing
                          (`hash_selection_data`), the outbound INCR paste
                          state machine and the inbound INCR size-abort path
* `src/ordered_hash_map.rs` — the insertion-ordered keyed map
* `src/transfer_window_pool.rs` — the pooled transfer-window resource
* `src/persistence.rs`  — versioned load with the legacy (version-1) fallback

Modelling conventions:

* Rust `String` / `&str` values (MIME names) are modelled as their UTF-8 byte
  sequences, `Str := List Nat`; Rust compares and orders strings bytewise, so
  this is the faithful representation.
* `u8` bytes and `u32`/`u64` ids are modelled as `Nat`; where the width
  matters (bincode varints) theorems carry explicit `< 2 ^ 64` bounds.
* `BTreeMap<String, Vec<u8>>` is modelled as an association list kept sorted
  by byte-lexicographic key order (the canonical form a `BTreeMap` maintains);
  `HashMap` results are canonicalised the same way (sorted by key) so that
  "same map contents" is plain list equality.
* `Instant` is modelled as a `Nat` tick count; `Duration::from_secs(1)` is
  the constant `ONE_SECOND` (the unit is irrelevant to every claim).
* Rust code that can panic on a given input (e.g. `slice::windows(0)` inside
  `contains`, `VecDeque::insert` out of range) is modelled as returning
  `none` / `Option`; total Rust code is modelled by total functions.
-/

/-! ## Byte strings (Rust `String` / `&str` as UTF-8 byte lists) -/

/-- Rust strings, as their byte sequences. -/
abbrev Str : Type := List Nat

/-- Byte sequence of an ASCII string literal (used to transcribe the MIME
tables from the source verbatim). -/
def asciiBytes (s : String) : Str := s.data.map Char.toNat

/-- ASCII-lowercase a single byte, as `u8::to_ascii_lowercase`. -/
def asciiLower (b : Nat) : Nat := if 65 ≤ b ∧ b ≤ 90 then b + 32 else b

/-- `str::eq_ignore_ascii_case`: bytewise comparison after ASCII-lowercasing. -/
def eqIgnoreAsciiCase (a b : Str) : Bool := a.map asciiLower == b.map asciiLower

/-- Byte-lexicographic strict order on byte strings: exactly the `Ord`
instance Rust uses for `String` keys of a `BTreeMap` (a strict prefix is
smaller). -/
def bytesLt : List Nat → List Nat → Bool
  | [], [] => false
  | [], _ :: _ => true
  | _ :: _, [] => false
  | a :: as, b :: bs => if a < b then true else if b < a then false else bytesLt as bs

/-- Strict order on `Nat` keys as a `Bool`, for atom-keyed maps. -/
def natLt (a b : Nat) : Bool := a < b

/-! ## Sorted association lists

`BTreeMap` (and the canonical form we use to compare `HashMap` contents) is
modelled as an association list sorted strictly by key.  The operations and
lemmas below are generic in the key type and a boolean strict order `lt`. -/

/-- First-match lookup in an association list (Rust `map.get(&k)`). -/
def alookup {K V : Type} [DecidableEq K] (k : K) : List (K × V) → Option V
  | [] => none
  | (k', v) :: rest => if k = k' then some v else alookup k rest

/-- Insert into an association list sorted by `lt`, replacing an existing
binding of the same key (`BTreeMap::insert`, canonicalised `HashMap::insert`). -/
def sortedInsert {K V : Type} [DecidableEq K] (lt : K → K → Bool) (k : K) (v : V) :
    List (K × V) → List (K × V)
  | [] => [(k, v)]
  | (k', v') :: rest =>
    if k = k' then (k, v) :: rest
    else if lt k k' then (k, v) :: (k', v') :: rest
    else (k', v') :: sortedInsert lt k v rest

/-- Keys of an association list. -/
def akeys {K V : Type} (l : List (K × V)) : List K := l.map Prod.fst

/-- Sortedness of an association list: keys strictly increasing under `lt`. -/
def ASorted {K V : Type} (lt : K → K → Bool) (l : List (K × V)) : Prop :=
  List.Pairwise (fun p q => lt p.1 q.1 = true) l

/-! ## `src/utils.rs`: MIME scoring -/

/-- `TEXT_MIMES_ORDER` from `utils.rs` (low to high priority). -/
def TEXT_MIMES_ORDER : List Str :=
  [asciiBytes "",
   asciiBytes "text/plain;charset=us-ascii",
   asciiBytes "text/plain;charset=unicode",
   asciiBytes "text",
   asciiBytes "string",
   asciiBytes "text/plain",
   asciiBytes "text/plain;charset=utf-8",
   asciiBytes "utf8_string"]

/-- `plaintext_mime_score`: position of the first case-insensitive match in
the priority table. -/
def plaintext_mime_score (mime : Str) : Option Nat :=
  TEXT_MIMES_ORDER.findIdx? (fun b => eqIgnoreAsciiCase mime b)

/-- `is_plaintext_mime`. -/
def is_plaintext_mime (mime : Str) : Bool := (plaintext_mime_score mime).isSome

/-- `IMAGE_MIMES_ORDER` from `utils.rs` (low to high priority). -/
def IMAGE_MIMES_ORDER : List Str :=
  [asciiBytes "image/jpeg", asciiBytes "image/png", asciiBytes "image/gif",
   asciiBytes "image/svg+xml"]

/-- `image_mime_score`: `position + 1` in the format table, `0` if absent. -/
def image_mime_score (mime : Str) : Nat :=
  ((IMAGE_MIMES_ORDER.findIdx? (fun b => eqIgnoreAsciiCase mime b)).map (· + 1)).getD 0

/-- `is_image_mime`: the name starts with `image/`. -/
def is_image_mime (mime : Str) : Bool := (asciiBytes "image/").isPrefixOf mime

/-- The password-manager sentinel MIME name (compared case-sensitively in
`filter_mimes`). -/
def passwordSentinel : Str := asciiBytes "x-kde-passwordManagerHint"

/-! ## `src/selection.rs`: `filter_mimes`

The source iterates a `HashMap<Atom, String>` in unspecified order; the model
takes the enumeration explicitly as a list of `(atom, name)` pairs and returns
the final `HashMap` canonicalised as an atom-sorted association list. -/

/-- Loop of `filter_mimes`: `filtered` is the accumulated pass-through map
(canonicalised), `(plain, plainScore)` and `(image, imageScore)` are the
current best plaintext/image candidates.  After the loop the winners are
inserted; the sentinel name empties the result and returns immediately. -/
def filterGo : List (Nat × Str) → List (Nat × Str) → Option (Nat × Str) → Nat →
    Option (Nat × Str) → Nat → List (Nat × Str)
  | [], filtered, plain, _, image, _ =>
    let f1 := match plain with
      | some (a, m) => sortedInsert natLt a m filtered
      | none => filtered
    match image with
    | some (a, m) => sortedInsert natLt a m f1
    | none => f1
  | (a, m) :: rest, filtered, plain, plainScore, image, imageScore =>
    match plaintext_mime_score m with
    | some score =>
      if plain.isNone || score > plainScore then
        filterGo rest filtered (some (a, m)) score image imageScore
      else
        filterGo rest filtered plain plainScore image imageScore
    | none =>
      if is_image_mime m then
        let score := image_mime_score m
        if image.isNone || score > imageScore then
          filterGo rest filtered plain plainScore (some (a, m)) score
        else
          filterGo rest filtered plain plainScore image imageScore
      else if m = passwordSentinel then
        []
      else
        filterGo rest (sortedInsert natLt a m filtered) plain plainScore image imageScore

/-- `filter_mimes` on an enumeration of the targets map. -/
def filter_mimes (mimes : List (Nat × Str)) : List (Nat × Str) :=
  filterGo mimes [] none 0 none 0

/-! ## Constants from `src/selection.rs` -/

/-- `HASH_SEED` (selection.rs). -/
def HASH_SEED : Nat := 0xfd9aadcf54cc0f35

/-- `MAX_INCR_SIZE = 10 * 1024 * 1024` (selection.rs): inbound INCR ceiling. -/
def MAX_INCR_SIZE : Nat := 10 * 1024 * 1024

/-- `INCR_CHUNK_SIZE = 1024 * 1024 - 1` (selection.rs): outbound chunking
threshold and chunk size. -/
def INCR_CHUNK_SIZE : Nat := 1024 * 1024 - 1

/-- `Duration::from_secs(1)` in model ticks (the merge window). -/
def ONE_SECOND : Nat := 1000

/-- `Config::item_limit` default (config.rs, `Default for Config`). -/
def defaultItemLimit : Nat := 100

/-! ## Selection data model -/

/-- `SelectionData = BTreeMap<String, Vec<u8>>`: association list sorted by
byte-lexicographic key order. -/
abbrev SelectionData : Type := List (Str × List Nat)

/-- `BTreeMap::insert` on `SelectionData`. -/
def btreeInsert (k : Str) (v : List Nat) (d : SelectionData) : SelectionData :=
  sortedInsert bytesLt k v d

/-- `SelectionItem` (selection.rs). -/
structure SelectionItem where
  id : Nat
  data : SelectionData
deriving DecidableEq, Repr

/-! ## bincode encoding (standard configuration, varint integers)

Used both by `hash_selection_data` (which serialises the data map before
hashing) and by the persistence layer.  `bincode::config::standard()` encodes
unsigned integers as varints: values below 251 as a single byte, then
2/4/8-byte little-endian payloads tagged 251/252/253. -/

/-- `count` little-endian bytes of `n`. -/
def natToLEBytes : Nat → Nat → List Nat
  | 0, _ => []
  | k + 1, n => n % 256 :: natToLEBytes k (n / 256)

/-- Read a little-endian byte list back as a `Nat`. -/
def leBytesToNat : List Nat → Nat
  | [] => 0
  | b :: rest => b + 256 * leBytesToNat rest

/-- bincode varint encoding of a `u64`/`usize`. -/
def encodeUVarint (n : Nat) : List Nat :=
  if n < 251 then [n]
  else if n < 2 ^ 16 then 251 :: natToLEBytes 2 n
  else if n < 2 ^ 32 then 252 :: natToLEBytes 4 n
  else 253 :: natToLEBytes 8 n

/-- bincode encoding of a byte sequence (`Vec<u8>` or the UTF-8 bytes of a
`String`): varint length followed by the bytes. -/
def encodeBytes (b : List Nat) : List Nat := encodeUVarint b.length ++ b

/-- bincode encoding of `SelectionData` (`BTreeMap<String, Vec<u8>>`): varint
entry count followed by the key/value pairs in key order. -/
def encodeData (d : SelectionData) : List Nat :=
  encodeUVarint d.length ++ (d.map (fun p => encodeBytes p.1 ++ encodeBytes p.2)).flatten

/-- The seeded byte-sequence hash.  `ahash::RandomState::with_seed(HASH_SEED)
.hash_one` is an external crate's fixed pure function of the byte sequence;
it is modelled here by an FNV-style mix with the same seed.  Every claim
about hashing depends only on it being a pure function of the bytes. -/
def hashBytes (bytes : List Nat) : Nat :=
  bytes.foldl (fun h b => ((h ^^^ b) * 0x100000001b3) % 2 ^ 64) (HASH_SEED % 2 ^ 64)

/-- `hash_selection_data` (selection.rs): serialise the sorted data map with
bincode, then hash with the fixed seed.  (The Rust function returns
`Result` but the encode of an in-memory map cannot fail.) -/
def hash_selection_data (d : SelectionData) : Nat := hashBytes (encodeData d)

/-- Build a `BTreeMap` by inserting `(name, payload)` pairs in discovery
order (the shape of the accumulation that precedes a finalize). -/
def buildSelectionData (l : List (Str × List Nat)) : SelectionData :=
  l.foldl (fun m p => btreeInsert p.1 p.2 m) []

/-! ## `process_selection_data`: per-reply accumulation -/

/-- The per-MIME-reply step of `process_selection_data` (selection.rs lines
746-756): a non-empty payload with a known MIME name is inserted into the
accumulated `BTreeMap`; an empty or unnamed payload is dropped with a
warning. -/
def accumulateValue (data : SelectionData) (mimeName : Option Str) (value : List Nat) :
    SelectionData :=
  match mimeName with
  | some name => if value.isEmpty then data else btreeInsert name value data
  | none => data

/-! ## `process_selection_data`: finalize -/

/-- `contains` (selection.rs): `haystack.windows(needle.len()).any(|w| w == needle)`.
`slice::windows` panics when the window size is zero, so an empty needle is
modelled as `none`. -/
def contains (haystack needle : List Nat) : Option Bool :=
  if needle.length = 0 then none
  else
    some (((List.range (haystack.length + 1 - needle.length)).map
      (fun i => (haystack.drop i).take needle.length)).any (fun w => w == needle))

/-- `prev_item_metadata`: `(owner window, capture instant, is_previously_seen)`. -/
abbrev PrevItemMetadata : Type := Nat × Nat × Bool

/-- The merge guard of `process_selection_data` (selection.rs lines 784-801),
an `&&`-chain evaluated lazily; `none` models the panic of `contains` on an
empty needle.  `prevItem` is `self.items.front()`. -/
def mergeCheck (merge : Bool) (prevMeta : Option PrevItemMetadata)
    (prevItem : Option SelectionItem) (data : SelectionData) (owner now : Nat) :
    Option Bool :=
  if !merge then some false
  else match prevMeta with
  | none => some false
  | some (prevOwner, prevTime, isPreviouslySeen) =>
    if prevOwner ≠ owner then some false
    else if ¬ now - prevTime < ONE_SECOND then some false
    else if isPreviouslySeen then some false
    else match data with
    | [(mime, newText)] =>
      if ¬ is_plaintext_mime mime then some false
      else match prevItem with
      | none => some false
      | some prevI =>
        match prevI.data with
        | [(prevMime, prevText)] =>
          if prevMime ≠ mime then some false
          else match contains newText prevText with
          | none => none
          | some true => some true
          | some false => contains prevText newText
        | _ => some false
    | [] => some false
    | _ :: _ :: _ => some false

/-- `self.items.iter().position(|i| i.id == id)` followed by
`self.items.remove(idx)`: remove the first item with the given content id,
returning it and the remaining deque. -/
def removeById : List SelectionItem → Nat → Option (SelectionItem × List SelectionItem)
  | [], _ => none
  | i :: rest, nid =>
    if i.id = nid then some (i, rest)
    else match removeById rest nid with
      | some (j, rest') => some (j, i :: rest')
      | none => none

/-- Result of a finalize: the new history, the new `prev_item_metadata`, and
the notification returned to the caller (`None` when the selection was
dropped empty, otherwise `(new_item, removed_items)`). -/
structure FinalizeResult where
  items : List SelectionItem
  prevMeta : Option PrevItemMetadata
  notification : Option (Option SelectionItem × List SelectionItem)
deriving DecidableEq, Repr

/-- The finalize portion of `process_selection_data` (selection.rs lines
774-829), entered once every requested MIME has been collected and the
transfer window released.  The history deque is a list with the front at the
head.  `none` models the (unreachable under the non-empty-payload invariant)
panic of the merge guard's `contains`. -/
def finalize (itemLimit : Nat) (merge : Bool) (items : List SelectionItem)
    (prevMeta : Option PrevItemMetadata) (data : SelectionData) (owner now : Nat) :
    Option FinalizeResult :=
  if data.isEmpty then some ⟨items, prevMeta, none⟩
  else
    let newItemId := hash_selection_data data
    match mergeCheck merge prevMeta items.head? data owner now with
    | none => none
    | some mergeB =>
      -- `removed.push(self.items.pop_front().unwrap())` when merging: the
      -- merge guard guarantees a front item, so popping is `tail`/`take 1`
      let items1 := if mergeB then items.tail else items
      let removed1 := if mergeB then items.take 1 else []
      match removeById items1 newItemId with
      | some (seenItem, rest) =>
        -- duplicated content id: move the existing item to the front
        some ⟨seenItem :: rest, some (owner, now, true), some (none, removed1)⟩
      | none =>
        let pushed := SelectionItem.mk newItemId data :: items1
        if pushed.length > itemLimit then
          some ⟨pushed.take itemLimit, some (owner, now, false),
                some ((pushed.take itemLimit).head?, removed1 ++ pushed.drop itemLimit)⟩
        else
          some ⟨pushed, some (owner, now, false), some (pushed.head?, removed1)⟩

/-- History-affecting state threaded between captures. -/
structure CaptureHistState where
  items : List SelectionItem
  prevMeta : Option PrevItemMetadata
deriving DecidableEq, Repr

/-- Run a sequence of completed captures (each a finalized data map together
with its owner window and arrival instant) through `finalize`. -/
def runCaptures (itemLimit : Nat) (merge : Bool) :
    CaptureHistState → List (SelectionData × Nat × Nat) → Option CaptureHistState
  | st, [] => some st
  | st, (data, owner, now) :: rest =>
    match finalize itemLimit merge st.items st.prevMeta data owner now with
    | none => none
    | some r => runCaptures itemLimit merge ⟨r.items, r.prevMeta⟩ rest

/-! ## Outbound INCR paste (selection.rs, `SelectionRequest` / `PropertyNotify`) -/

/-- `IncrPasteTaskState::TransferingIncr` (selection.rs). -/
structure IncrPasteTask where
  target : Nat
  item_id : Nat
  data_atom_name : Str
  offset : Nat
deriving DecidableEq, Repr

/-- The INCR announce path of the `SelectionRequest` handler (selection.rs
lines 583-615): taken when the payload exceeds `INCR_CHUNK_SIZE`; registers a
task at offset `0`. -/
def announceIncr (target itemId : Nat) (dataAtomName : Str) : IncrPasteTask :=
  ⟨target, itemId, dataAtomName, 0⟩

/-- The item lookup of the INCR paste handler:
`items.iter().find(|i| i.id == item_id).and_then(|item| item.data.get(name))`. -/
def findItemData (items : List SelectionItem) (itemId : Nat) (name : Str) :
    Option (List Nat) :=
  (items.find? (fun i => i.id == itemId)).bind (fun item => alookup name item.data)

/-- One property-delete acknowledgement in the INCR paste handler
(selection.rs lines 634-709): returns the task if it continues, plus the
chunk written to the peer's property.  When the item has disappeared from the
history, the task is torn down and an empty chunk written. -/
def incrPasteStep (items : List SelectionItem) (t : IncrPasteTask) :
    Option IncrPasteTask × List Nat :=
  match findItemData items t.item_id t.data_atom_name with
  | some data =>
    let e := min (t.offset + INCR_CHUNK_SIZE) data.length
    let chunk := (data.drop t.offset).take (e - t.offset)
    if t.offset = e then (none, chunk)
    else (some { t with offset := e }, chunk)
  | none => (none, [])

/-- Iterate `incrPasteStep` against a fixed history until the task tears
itself down, collecting the emitted chunks; the `Bool` reports whether the
transfer finished within the given fuel. -/
def incrPasteRun (items : List SelectionItem) : IncrPasteTask → Nat →
    List (List Nat) × Bool
  | _, 0 => ([], false)
  | t, fuel + 1 =>
    match incrPasteStep items t with
    | (none, chunk) => ([chunk], true)
    | (some t', chunk) =>
      let (chunks, fin) := incrPasteRun items t' fuel
      (chunk :: chunks, fin)

/-! ## `src/transfer_window_pool.rs` and the inbound INCR size abort -/

/-- A pooled `TransferWindow { id, atom }`. -/
structure TransferWindow where
  id : Nat
  atom : Nat
deriving DecidableEq, Repr

/-- `TransferWindowPool` bookkeeping (transfer_window_pool.rs). -/
structure TransferWindowPool where
  windows : List TransferWindow
  counter : Nat
  get_count : Nat
  release_count : Nat
deriving DecidableEq, Repr

/-- `TransferWindowPool::release`: push the window back and count the
release. -/
def TransferWindowPool.release (pool : TransferWindowPool) (w : TransferWindow) :
    TransferWindowPool :=
  { pool with release_count := pool.release_count + 1, windows := pool.windows ++ [w] }

/-- `RequestTaskState` (selection.rs). -/
inductive RequestTaskState where
  | targetsRequest
  | pendingSelection (mimes : List (Nat × Str)) (data : SelectionData)
  | pendingIncr (mimes : List (Nat × Str)) (data : SelectionData)
      (currentMimeAtom : Nat) (currentMimeName : Str) (buffer : List Nat)
deriving DecidableEq, Repr

/-- Remove the binding of a key from an association list (first occurrence),
as `HashMap::remove`. -/
def removeKey {K V : Type} [DecidableEq K] (k : K) : List (K × V) → List (K × V)
  | [] => []
  | (k', v) :: rest => if k' = k then rest else (k', v) :: removeKey k rest

/-- Replace the binding of a key in an association list (first occurrence),
as `HashMap` entry mutation through `get_mut`. -/
def setKey {K V : Type} [DecidableEq K] (k : K) (v : V) : List (K × V) → List (K × V)
  | [] => []
  | (k', v') :: rest => if k' = k then (k', v) :: rest else (k', v') :: setKey k v rest

/-- The engine state touched by the inbound INCR chunk handler: the request
task map (keyed by transfer window id, carrying `(transfer_atom, owner)`
metadata), the transfer window pool, and the history. -/
structure CaptureEngineState where
  request_tasks : List (Nat × (RequestTaskState × (Nat × Nat)))
  transfer_windows : TransferWindowPool
  items : List SelectionItem
deriving DecidableEq, Repr

/-- Receipt of a non-empty INCR chunk for a `PendingIncr` request task
(selection.rs lines 438-484, size-check and append part): when the running
total would exceed `MAX_INCR_SIZE` the task is removed from the map and the
handler breaks out — the pool and the history are left untouched; otherwise
the chunk is appended to the buffer. -/
def incrCaptureChunk (st : CaptureEngineState) (window : Nat) (chunk : List Nat) :
    CaptureEngineState :=
  match alookup window st.request_tasks with
  | some (RequestTaskState.pendingIncr mimes data atom name buffer, meta) =>
    if buffer.length + chunk.length > MAX_INCR_SIZE then
      { st with request_tasks := removeKey window st.request_tasks }
    else
      let newTask := (RequestTaskState.pendingIncr mimes data atom name (buffer ++ chunk), meta)
      { st with request_tasks := setKey window newTask st.request_tasks }
  | _ => st

/-! ## `src/ordered_hash_map.rs` -/

/-- `OrderedHashMap<K, V>`: a `HashMap` (modelled as an association list with
no duplicate keys) plus a `VecDeque` of keys recording insertion order. -/
structure OrderedHashMap (K V : Type) where
  map : List (K × V)
  keys : List K
deriving DecidableEq, Repr

namespace OrderedHashMap

variable {K V : Type} [DecidableEq K]

/-- `OrderedHashMap::new`. -/
def empty : OrderedHashMap K V := ⟨[], []⟩

/-- `map.contains_key(&k)`. -/
def containsKey (m : OrderedHashMap K V) (k : K) : Bool := (alookup k m.map).isSome

/-- `HashMap::insert` on the backing map: replace an existing binding in
place, otherwise add one. -/
def mapInsert (k : K) (v : V) (m : List (K × V)) : List (K × V) :=
  if (alookup k m).isSome then setKey k v m else m ++ [(k, v)]

/-- `remove_in_keys` (ordered_hash_map.rs): if the key is in the map, remove
its (first) position from the keys deque. -/
def remove_in_keys (m : OrderedHashMap K V) (k : K) : OrderedHashMap K V :=
  if m.containsKey k then { m with keys := m.keys.erase k } else m

/-- `push_front`. -/
def push_front (m : OrderedHashMap K V) (k : K) (v : V) : OrderedHashMap K V :=
  let m := m.remove_in_keys k
  { map := mapInsert k v m.map, keys := k :: m.keys }

/-- `push_back`. -/
def push_back (m : OrderedHashMap K V) (k : K) (v : V) : OrderedHashMap K V :=
  let m := m.remove_in_keys k
  { map := mapInsert k v m.map, keys := m.keys ++ [k] }

/-- `insert(index, key, value)`; `VecDeque::insert` panics when the index is
beyond the deque's length, modelled as `none`. -/
def insertAt (m : OrderedHashMap K V) (index : Nat) (k : K) (v : V) :
    Option (OrderedHashMap K V) :=
  let m := m.remove_in_keys k
  if index ≤ m.keys.length then
    some { map := mapInsert k v m.map, keys := m.keys.insertIdx index k }
  else none

/-- `pop_front`: pop the first key (if any), then remove it from the map. -/
def pop_front (m : OrderedHashMap K V) : OrderedHashMap K V × Option (K × V) :=
  match m.keys with
  | [] => (m, none)
  | k :: rest =>
    ({ map := removeKey k m.map, keys := rest }, (alookup k m.map).map (fun v => (k, v)))

/-- `pop_back`. -/
def pop_back (m : OrderedHashMap K V) : OrderedHashMap K V × Option (K × V) :=
  match m.keys.getLast? with
  | none => (m, none)
  | some k =>
    ({ map := removeKey k m.map, keys := m.keys.dropLast },
     (alookup k m.map).map (fun v => (k, v)))

/-- `remove(&k)`: remove from the map; when a value was present, also remove
the key's (first) position from the deque. -/
def remove (m : OrderedHashMap K V) (k : K) : OrderedHashMap K V :=
  if (alookup k m.map).isSome then
    { map := removeKey k m.map, keys := m.keys.erase k }
  else m

/-- `split_off(at)`: keep the first `at` keys, removing the split-off keys'
bindings from the map (the split-off part itself is rebuilt by `push_back`
and returned; the claim concerns the retained map, so only it is modelled).
`VecDeque::split_off` panics when `at` exceeds the length, modelled as
`none`. -/
def split_off (m : OrderedHashMap K V) (at_ : Nat) : Option (OrderedHashMap K V) :=
  if at_ ≤ m.keys.length then
    some { map := (m.keys.drop at_).foldl (fun acc k => removeKey k acc) m.map,
           keys := m.keys.take at_ }
  else none

end OrderedHashMap

/-- The operations of claim C9 on an `OrderedHashMap`. -/
inductive OhmOp (K V : Type) where
  | pushFront (k : K) (v : V)
  | pushBack (k : K) (v : V)
  | insertAt (index : Nat) (k : K) (v : V)
  | remove (k : K)
  | popFront
  | popBack
  | splitOff (at_ : Nat)

/-- Apply one operation; `none` models a `VecDeque` index panic. -/
def applyOhmOp {K V : Type} [DecidableEq K] (m : OrderedHashMap K V) :
    OhmOp K V → Option (OrderedHashMap K V)
  | .pushFront k v => some (m.push_front k v)
  | .pushBack k v => some (m.push_back k v)
  | .insertAt i k v => m.insertAt i k v
  | .remove k => some (m.remove k)
  | .popFront => some (m.pop_front).1
  | .popBack => some (m.pop_back).1
  | .splitOff a => m.split_off a

/-- Apply a sequence of operations. -/
def applyOhmOps {K V : Type} [DecidableEq K] :
    OrderedHashMap K V → List (OhmOp K V) → Option (OrderedHashMap K V)
  | m, [] => some m
  | m, op :: rest =>
    match applyOhmOp m op with
    | some m' => applyOhmOps m' rest
    | none => none

/-! ## `src/persistence.rs`

The on-disk format: a 4-byte little-endian version, then a bincode
(standard-configuration) payload.  Version 2 carries
`(OrderedHashMap<u64, SelectionItem>, SelectionMetadata)`; the legacy
(version-1) format is a plain `VecDeque<SelectionItem>` with no version
field.  `bincode::decode_from_slice` ignores trailing bytes.  The model
decodes byte lists; the decoder for `String` keys does not re-validate UTF-8
(it accepts a superset of the real decoder; every claim here decodes bytes
that were produced by encoding real strings, where the two agree). -/

/-- bincode varint decoding of a `u64`/`usize`. -/
def decodeUVarint : List Nat → Option (Nat × List Nat)
  | [] => none
  | b :: rest =>
    if b < 251 then some (b, rest)
    else if b = 251 then
      match rest with
      | b0 :: b1 :: r => some (leBytesToNat [b0, b1], r)
      | _ => none
    else if b = 252 then
      match rest with
      | b0 :: b1 :: b2 :: b3 :: r => some (leBytesToNat [b0, b1, b2, b3], r)
      | _ => none
    else if b = 253 then
      match rest with
      | b0 :: b1 :: b2 :: b3 :: b4 :: b5 :: b6 :: b7 :: r =>
        some (leBytesToNat [b0, b1, b2, b3, b4, b5, b6, b7], r)
      | _ => none
    else none

/-- bincode decoding of a length-prefixed byte sequence (`Vec<u8>`, or the
UTF-8 bytes of a `String`). -/
def decodeByteSeq (bytes : List Nat) : Option (List Nat × List Nat) :=
  match decodeUVarint bytes with
  | some (n, rest) => if n ≤ rest.length then some (rest.take n, rest.drop n) else none
  | none => none

/-- Decode `count` key/value entries of a `BTreeMap<String, Vec<u8>>`. -/
def decodeDataEntries : Nat → List Nat → Option (List (Str × List Nat) × List Nat)
  | 0, bytes => some ([], bytes)
  | n + 1, bytes =>
    match decodeByteSeq bytes with
    | some (key, r1) =>
      match decodeByteSeq r1 with
      | some (val, r2) =>
        match decodeDataEntries n r2 with
        | some (entries, r3) => some ((key, val) :: entries, r3)
        | none => none
      | none => none
    | none => none

/-- bincode decoding of `SelectionData`: entry count, then entries inserted
into a fresh `BTreeMap`. -/
def decodeDataMap (bytes : List Nat) : Option (SelectionData × List Nat) :=
  match decodeUVarint bytes with
  | some (n, r) =>
    match decodeDataEntries n r with
    | some (entries, rest) =>
      some (entries.foldl (fun d p => btreeInsert p.1 p.2 d) [], rest)
    | none => none
  | none => none

/-- bincode decoding of a `SelectionItem` (derived `Decode`: `id`, then
`data`). -/
def decodeItem (bytes : List Nat) : Option (SelectionItem × List Nat) :=
  match decodeUVarint bytes with
  | some (id, r1) =>
    match decodeDataMap r1 with
    | some (data, r2) => some (⟨id, data⟩, r2)
    | none => none
  | none => none

/-- Decode `count` consecutive `SelectionItem`s. -/
def decodeItemEntries : Nat → List Nat → Option (List SelectionItem × List Nat)
  | 0, bytes => some ([], bytes)
  | n + 1, bytes =>
    match decodeItem bytes with
    | some (item, r1) =>
      match decodeItemEntries n r1 with
      | some (items, r2) => some (item :: items, r2)
      | none => none
    | none => none

/-- bincode decoding of a `VecDeque<SelectionItem>` (the legacy payload). -/
def decodeItemsList (bytes : List Nat) : Option (List SelectionItem × List Nat) :=
  match decodeUVarint bytes with
  | some (n, r) => decodeItemEntries n r
  | none => none

/-- Decode `count` `(u64, SelectionItem)` entries of the version-2
`HashMap<u64, SelectionItem>`. -/
def decodeMapEntries : Nat → List Nat → Option (List (Nat × SelectionItem) × List Nat)
  | 0, bytes => some ([], bytes)
  | n + 1, bytes =>
    match decodeUVarint bytes with
    | some (k, r1) =>
      match decodeItem r1 with
      | some (item, r2) =>
        match decodeMapEntries n r2 with
        | some (entries, r3) => some ((k, item) :: entries, r3)
        | none => none
      | none => none
    | none => none

/-- Decode `count` `u64`s (the version-2 keys `VecDeque<u64>`). -/
def decodeNatEntries : Nat → List Nat → Option (List Nat × List Nat)
  | 0, bytes => some ([], bytes)
  | n + 1, bytes =>
    match decodeUVarint bytes with
    | some (k, r1) =>
      match decodeNatEntries n r1 with
      | some (ks, r2) => some (k :: ks, r2)
      | none => none
    | none => none

/-- Decode a length-prefixed sequence of `u64`s. -/
def decodeNatList (bytes : List Nat) : Option (List Nat × List Nat) :=
  match decodeUVarint bytes with
  | some (n, r) => decodeNatEntries n r
  | none => none

/-- Modelled from the spec: `SelectionMetadata` is referenced by
`persistence.rs` but its definition is not among the provided sources; §3 of
the spec describes it as a small auxiliary record of pin ordering hints for
pinned items, with a default value.  It is modelled as a list of pinned item
ids; its exact shape is irrelevant to the persistence claims. -/
structure SelectionMetadata where
  pinned : List Nat
deriving DecidableEq, Repr

/-- `SelectionMetadata::default()`. -/
def SelectionMetadata.default : SelectionMetadata := ⟨[]⟩

/-- bincode decoding of the modelled `SelectionMetadata`. -/
def decodeMetadata (bytes : List Nat) : Option (SelectionMetadata × List Nat) :=
  match decodeNatList bytes with
  | some (ks, r) => some (⟨ks⟩, r)
  | none => none

/-- The version-2 payload decoder:
`(OrderedHashMap<u64, SelectionItem>, SelectionMetadata)`, where the derived
`Decode` of `OrderedHashMap` reads its `map` field then its `keys` field. -/
def decodeV2 (bytes : List Nat) :
    Option ((OrderedHashMap Nat SelectionItem × SelectionMetadata) × List Nat) :=
  match decodeUVarint bytes with
  | some (n, r1) =>
    match decodeMapEntries n r1 with
    | some (entries, r2) =>
      match decodeNatList r2 with
      | some (ks, r3) =>
        match decodeMetadata r3 with
        | some (md, r4) =>
          some ((⟨entries.foldl (fun acc p => OrderedHashMap.mapInsert p.1 p.2 acc) [], ks⟩, md), r4)
        | none => none
      | none => none
    | none => none
  | none => none

/-- `decode_version_1` (persistence.rs): decode the legacy plain sequence,
then re-key it through `push_back` into the new keyed-history shape. -/
def decode_version_1 (bytes : List Nat) :
    Option (OrderedHashMap Nat SelectionItem × SelectionMetadata) :=
  match decodeItemsList bytes with
  | some (oldItems, _) =>
    some (oldItems.foldl (fun m item => m.push_back item.id item) OrderedHashMap.empty,
          SelectionMetadata.default)
  | none => none

/-- `Persistence::load_selection_data` on the bytes of an existing file:
read a 4-byte little-endian version (failing on a shorter file), attempt the
versioned decode (only version 2 is known), and only if that fails fall back
to the legacy decode of the whole byte stream (`data.splice(0..0,
version_buf)` re-prepends the consumed header).  Errors are collapsed to
`Unit`. -/
def load_selection_data (bytes : List Nat) :
    Except Unit (OrderedHashMap Nat SelectionItem × SelectionMetadata) :=
  if bytes.length < 4 then .error ()
  else
    let version := leBytesToNat (bytes.take 4)
    let data := bytes.drop 4
    let versioned : Except Unit (OrderedHashMap Nat SelectionItem × SelectionMetadata) :=
      if version = 2 then
        match decodeV2 data with
        | some (x, _) => .ok x
        | none => .error ()
      else .error ()
    match versioned with
    | .ok x => .ok x
    | .error e =>
      match decode_version_1 bytes with
      | some y => .ok y
      | none => .error e

/-- bincode encoding of a `SelectionItem` (derived `Encode`: `id`, then
`data`). -/
def encodeItem (i : SelectionItem) : List Nat :=
  encodeUVarint i.id ++ encodeData i.data

/-- The legacy (version-1) on-disk format: the bincode encoding of the plain
`VecDeque<SelectionItem>`, with no version header. -/
def encodeLegacy (items : List SelectionItem) : List Nat :=
  encodeUVarint items.length ++ (items.map encodeItem).flatten

/-- Well-formedness of a `SelectionData` value as it exists in the running
program: a `BTreeMap` (keys strictly sorted), non-empty, with non-empty
payloads, and with `usize` lengths in range. -/
def WfData (d : SelectionData) : Prop :=
  ASorted bytesLt d ∧ d ≠ [] ∧ d.length < 2 ^ 64 ∧
    ∀ p ∈ d, p.1.length < 2 ^ 64 ∧ p.2.length < 2 ^ 64 ∧ p.2 ≠ []

/-- Well-formedness of a `SelectionItem`: a `u64` id and well-formed data. -/
def WfItem (i : SelectionItem) : Prop := i.id < 2 ^ 64 ∧ WfData i.data

instance : DecidablePred WfData := fun d => by
  unfold WfData ASorted; infer_instance

instance : DecidablePred WfItem := fun i => by
  unfold WfItem; infer_instance

/-! ## Auxiliary definitions used by the statements and proofs -/

/-- The plaintext-candidate component of the `filter_mimes` loop in
isolation: the `(plain, plain_score)` pair threaded through the entries. -/
def plainFold : List (Nat × Str) → Option (Nat × Str) → Nat → Option (Nat × Str) × Nat
  | [], plain, plainScore => (plain, plainScore)
  | (a, m) :: rest, plain, plainScore =>
    match plaintext_mime_score m with
    | some score =>
      if plain.isNone || score > plainScore then plainFold rest (some (a, m)) score
      else plainFold rest plain plainScore
    | none => plainFold rest plain plainScore

/-- The image-candidate component of the `filter_mimes` loop in isolation. -/
def imageFold : List (Nat × Str) → Option (Nat × Str) → Nat → Option (Nat × Str) × Nat
  | [], image, imageScore => (image, imageScore)
  | (a, m) :: rest, image, imageScore =>
    match plaintext_mime_score m with
    | some _ => imageFold rest image imageScore
    | none =>
      if is_image_mime m then
        if image.isNone || image_mime_score m > imageScore then
          imageFold rest (some (a, m)) (image_mime_score m)
        else imageFold rest image imageScore
      else imageFold rest image imageScore

/-- A MIME that `filter_mimes` passes through unchanged: neither plaintext
nor image nor the password sentinel. -/
def isOtherMime (m : Str) : Bool :=
  !is_plaintext_mime m && !is_image_mime m && m ≠ passwordSentinel

/-- Insert an optional winner into the canonicalised result map. -/
def insOpt (w : Option (Nat × Str)) (f : List (Nat × Str)) : List (Nat × Str) :=
  match w with
  | some (a, m) => sortedInsert natLt a m f
  | none => f

/-- Insert a list of entries into a canonicalised (atom-sorted) map. -/
def insertAll (acc : List (Nat × Str)) (l : List (Nat × Str)) : List (Nat × Str) :=
  l.foldl (fun f e => sortedInsert natLt e.1 e.2 f) acc

/-- Defaulted plaintext score, for stating tie-freedom. -/
def pscoreD (e : Nat × Str) : Nat := (plaintext_mime_score e.2).getD 0

/-- Tie-freedom of the plaintext priority maximum over an enumeration:
either no entry is plaintext, or some plaintext entry strictly outranks
every other plaintext entry. -/
def PlainMaxUnique (l : List (Nat × Str)) : Prop :=
  (∀ e ∈ l, is_plaintext_mime e.2 = false) ∨
    ∃ u ∈ l, is_plaintext_mime u.2 = true ∧
      ∀ e ∈ l, e ≠ u → is_plaintext_mime e.2 = true → pscoreD e < pscoreD u

/-- Tie-freedom of the image format maximum over an enumeration. -/
def ImageMaxUnique (l : List (Nat × Str)) : Prop :=
  (∀ e ∈ l, is_image_mime e.2 = false) ∨
    ∃ u ∈ l, is_image_mime u.2 = true ∧
      ∀ e ∈ l, e ≠ u → is_image_mime e.2 = true → image_mime_score e.2 < image_mime_score u.2

instance (l : List (Nat × Str)) : Decidable (PlainMaxUnique l) :=
  inferInstanceAs (Decidable
    ((∀ e ∈ l, is_plaintext_mime e.2 = false) ∨
      ∃ u ∈ l, is_plaintext_mime u.2 = true ∧
        ∀ e ∈ l, e ≠ u → is_plaintext_mime e.2 = true → pscoreD e < pscoreD u))

instance (l : List (Nat × Str)) : Decidable (ImageMaxUnique l) :=
  inferInstanceAs (Decidable
    ((∀ e ∈ l, is_image_mime e.2 = false) ∨
      ∃ u ∈ l, is_image_mime u.2 = true ∧
        ∀ e ∈ l, e ≠ u → is_image_mime e.2 = true →
          image_mime_score e.2 < image_mime_score u.2))

/-- The claimed `OrderedHashMap` invariant: the keys deque has no duplicate
keys and holds exactly the key set of the backing map (plus the backing
map's own key uniqueness, which `HashMap` guarantees). -/
def OhmInv {K V : Type} [DecidableEq K] (m : OrderedHashMap K V) : Prop :=
  m.keys.Nodup ∧ (akeys m.map).Nodup ∧ ∀ k, k ∈ m.keys ↔ (alookup k m.map).isSome

/-- All payloads of a data map are non-empty. -/
def DataValuesNonempty (d : SelectionData) : Prop := ∀ p ∈ d, p.2 ≠ []

/-- All payloads of every item in a history are non-empty. -/
def HistValuesNonempty (items : List SelectionItem) : Prop :=
  ∀ i ∈ items, DataValuesNonempty i.data

instance : DecidablePred DataValuesNonempty := fun d => by
  unfold DataValuesNonempty; infer_instance

instance : DecidablePred HistValuesNonempty := fun items => by
  unfold HistValuesNonempty; infer_instance

/-- Concrete payload for the outbound-INCR witness: one byte more than a
chunk. -/
def c3Data : List Nat := List.replicate (INCR_CHUNK_SIZE + 1) 7

/-- Concrete one-item history for the outbound-INCR witness. -/
def c3Items : List SelectionItem := [⟨5, [([97], c3Data)]⟩]

/-- Concrete engine state for the inbound-INCR size-abort evidence: one
`PendingIncr` task for transfer window 7 whose buffer already holds
`MAX_INCR_SIZE` bytes, a pool with one checked-out window. -/
def c4State : CaptureEngineState :=
  { request_tasks :=
      [(7, (RequestTaskState.pendingIncr [] [] 9 [97] (List.replicate MAX_INCR_SIZE 0), (5, 3)))],
    transfer_windows := { windows := [], counter := 1, get_count := 1, release_count := 0 },
    items := [] }

/-- Concrete target enumeration for the `filter_mimes` determinism evidence:
the spec's own example set (two plaintext names, two image names, one
unrelated name), listed in one discovery order. -/
def c8L1 : List (Nat × Str) :=
  [(1, asciiBytes "text/plain"), (2, asciiBytes "text/plain;charset=utf-8"),
   (3, asciiBytes "image/png"), (4, asciiBytes "image/jpeg"),
   (5, asciiBytes "application/x-foo")]

/-- The same target set as `c8L1` in the reverse discovery order. -/
def c8L2 : List (Nat × Str) :=
  [(5, asciiBytes "application/x-foo"), (4, asciiBytes "image/jpeg"),
   (3, asciiBytes "image/png"), (2, asciiBytes "text/plain;charset=utf-8"),
   (1, asciiBytes "text/plain")]

/-! # Lemmas and theorems -/

/-! ## Generic association-list machinery -/

section AssocMachinery

variable {K V : Type} [DecidableEq K] {lt : K → K → Bool}

theorem alookup_eq_none_of_not_mem_akeys {l : List (K × V)} {j : K}
    (h : j ∉ akeys l) : alookup j l = none := by
  induction l with
  | nil => rfl
  | cons p rest ih =>
    simp only [akeys, List.map_cons, List.mem_cons] at h
    push_neg at h
    simp only [alookup, if_neg h.1]
    exact ih (by simpa [akeys] using h.2)

theorem mem_akeys_of_alookup_isSome {l : List (K × V)} {j : K}
    (h : (alookup j l).isSome) : j ∈ akeys l := by
  induction l with
  | nil => simp [alookup] at h
  | cons p rest ih =>
    by_cases hj : j = p.1
    · simp [akeys, hj]
    · simp only [alookup] at h
      rw [if_neg (by simpa using hj)] at h
      simp only [akeys, List.map_cons, List.mem_cons]
      exact Or.inr (ih h)

theorem mem_of_alookup_eq_some {l : List (K × V)} {j : K} {v : V}
    (h : alookup j l = some v) : (j, v) ∈ l := by
  induction l with
  | nil => simp [alookup] at h
  | cons p rest ih =>
    obtain ⟨k', v'⟩ := p
    by_cases hj : j = k'
    · subst hj
      rw [alookup, if_pos rfl] at h
      obtain rfl : v' = v := by injection h
      exact List.mem_cons_self _ _
    · rw [alookup, if_neg hj] at h
      exact List.mem_cons_of_mem _ (ih h)

theorem alookup_eq_some_of_mem {l : List (K × V)} {j : K} {v : V}
    (hn : (akeys l).Nodup) (h : (j, v) ∈ l) : alookup j l = some v := by
  induction l with
  | nil => simp at h
  | cons p rest ih =>
    simp only [akeys, List.map_cons, List.nodup_cons] at hn
    rcases List.mem_cons.mp h with h | h
    · subst h
      simp [alookup]
    · have hj : j ≠ p.1 := by
        intro hc
        exact hn.1 (hc ▸ (by simpa [akeys] using List.mem_map_of_mem Prod.fst h))
      simp only [alookup, if_neg hj]
      exact ih hn.2 h

theorem alookup_perm {l l' : List (K × V)} {j : K}
    (hn : (akeys l).Nodup) (hp : l.Perm l') : alookup j l = alookup j l' := by
  have hkeys : (akeys l).Perm (akeys l') := hp.map Prod.fst
  have hn' : (akeys l').Nodup := hkeys.nodup_iff.mp hn
  cases hlk : alookup j l with
  | none =>
    have : j ∉ akeys l := by
      intro hm
      rcases List.mem_map.mp hm with ⟨p, hpmem, hpeq⟩
      have hpm : (j, p.2) ∈ l := by
        rw [← hpeq]
        simpa using hpmem
      have := alookup_eq_some_of_mem hn hpm
      rw [hlk] at this
      cases this
    have : j ∉ akeys l' := fun hm => this (hkeys.mem_iff.mpr hm)
    exact (alookup_eq_none_of_not_mem_akeys this).symm
  | some v =>
    exact (alookup_eq_some_of_mem hn' (hp.mem_iff.mp (mem_of_alookup_eq_some hlk))).symm

theorem alookup_sortedInsert (k j : K) (v : V) (l : List (K × V)) :
    alookup j (sortedInsert lt k v l) = if j = k then some v else alookup j l := by
  induction l with
  | nil => simp [sortedInsert, alookup]
  | cons p rest ih =>
    obtain ⟨k', v'⟩ := p
    by_cases hkk : k = k'
    · subst hkk
      by_cases hj : j = k <;> simp [sortedInsert, alookup, hj]
    · rw [sortedInsert, if_neg hkk]
      by_cases hlt : lt k k'
      · rw [if_pos hlt]
        by_cases hj : j = k
        · simp [alookup, hj, hkk]
        · simp [alookup, hj]
      · rw [if_neg hlt]
        by_cases hj : j = k'
        · have hjk : j ≠ k := fun hc => hkk (hc.symm.trans hj)
          have hk'k : k' ≠ k := fun hc => hkk hc.symm
          simp [alookup, hj, hjk, hk'k]
        · simp [alookup, hj, ih]

theorem akeys_sortedInsert_subset {k : K} {v : V} {l : List (K × V)} {x : K}
    (h : x ∈ akeys (sortedInsert lt k v l)) : x = k ∨ x ∈ akeys l := by
  induction l with
  | nil => simpa [sortedInsert, akeys] using h
  | cons p rest ih =>
    obtain ⟨k', v'⟩ := p
    by_cases hkk : k = k'
    · subst hkk
      simpa [sortedInsert, akeys] using h
    · rw [sortedInsert, if_neg hkk] at h
      by_cases hlt : lt k k'
      · rw [if_pos hlt] at h
        simpa [akeys] using h
      · rw [if_neg hlt] at h
        simp only [akeys, List.map_cons, List.mem_cons] at h
        rcases h with h | h
        · exact Or.inr (by simp [akeys, h])
        · rcases ih h with h | h
          · exact Or.inl h
          · exact Or.inr (by simp [akeys]; exact Or.inr (by simpa [akeys] using h))

end AssocMachinery

section SortedMachinery

variable {K V : Type} [DecidableEq K] {lt : K → K → Bool}

omit [DecidableEq K] in
theorem mem_akeys_of_mem {l : List (K × V)} {p : K × V} (h : p ∈ l) : p.1 ∈ akeys l :=
  List.mem_map_of_mem Prod.fst h

theorem asorted_sortedInsert
    (htot : ∀ a b : K, a ≠ b → lt a b = true ∨ lt b a = true)
    (htrans : ∀ a b c : K, lt a b = true → lt b c = true → lt a c = true)
    {l : List (K × V)} (hs : ASorted lt l) (k : K) (v : V) :
    ASorted lt (sortedInsert lt k v l) := by
  induction l with
  | nil => simp [sortedInsert, ASorted]
  | cons p rest ih =>
    obtain ⟨k', v'⟩ := p
    obtain ⟨hhead, hrest⟩ := List.pairwise_cons.mp hs
    by_cases hkk : k = k'
    · subst hkk
      rw [sortedInsert, if_pos rfl]
      exact List.pairwise_cons.mpr ⟨fun q hq => hhead q hq, hrest⟩
    · rw [sortedInsert, if_neg hkk]
      by_cases hlt : lt k k'
      · rw [if_pos hlt]
        refine List.pairwise_cons.mpr ⟨?_, List.pairwise_cons.mpr ⟨hhead, hrest⟩⟩
        intro q hq
        rcases List.mem_cons.mp hq with rfl | hq
        · exact hlt
        · exact htrans _ _ _ hlt (hhead q hq)
      · rw [if_neg hlt]
        refine List.pairwise_cons.mpr ⟨?_, ih hrest⟩
        intro q hq
        rcases akeys_sortedInsert_subset (mem_akeys_of_mem hq) with hq1 | hq1
        · rw [hq1]
          rcases htot k k' hkk with h | h
          · exact absurd h hlt
          · exact h
        · rcases List.mem_map.mp hq1 with ⟨q', hq', hq'eq⟩
          rw [← hq'eq]
          exact hhead q' hq'

theorem alookup_head_tail_none (hirr : ∀ a : K, lt a a = false)
    {k : K} {v : V} {t : List (K × V)} (hs : ASorted lt ((k, v) :: t)) :
    alookup k t = none := by
  obtain ⟨hhead, _⟩ := List.pairwise_cons.mp hs
  cases hlk : alookup k t with
  | none => rfl
  | some w =>
    have := hhead _ (mem_of_alookup_eq_some hlk)
    rw [hirr k] at this
    cases this

theorem asorted_ext (hirr : ∀ a : K, lt a a = false)
    (htrans : ∀ a b c : K, lt a b = true → lt b c = true → lt a c = true) :
    ∀ {l1 l2 : List (K × V)}, ASorted lt l1 → ASorted lt l2 →
      (∀ j, alookup j l1 = alookup j l2) → l1 = l2
  | [], [], _, _, _ => rfl
  | [], (k2, v2) :: t2, _, _, hext => by
    have := hext k2
    rw [alookup, alookup, if_pos rfl] at this
    cases this
  | (k1, v1) :: t1, [], _, _, hext => by
    have := hext k1
    rw [alookup, alookup, if_pos rfl] at this
    cases this
  | (k1, v1) :: t1, (k2, v2) :: t2, h1, h2, hext => by
    by_cases hkk : k1 = k2
    · subst hkk
      have hv : v1 = v2 := by
        have := hext k1
        rw [alookup, alookup, if_pos rfl, if_pos rfl] at this
        injection this
      subst hv
      have htail : t1 = t2 := by
        apply asorted_ext hirr htrans (List.Pairwise.of_cons h1) (List.Pairwise.of_cons h2)
        intro j
        by_cases hj : j = k1
        · subst hj
          rw [alookup_head_tail_none hirr h1, alookup_head_tail_none hirr h2]
        · have := hext j
          rwa [alookup, alookup, if_neg hj, if_neg hj] at this
      rw [htail]
    · exfalso
      have e1 : alookup k1 ((k2, v2) :: t2) = some v1 := by
        rw [← hext k1, alookup, if_pos rfl]
      rw [alookup, if_neg hkk] at e1
      have e2 : alookup k2 ((k1, v1) :: t1) = some v2 := by
        rw [hext k2, alookup, if_pos rfl]
      rw [alookup, if_neg (fun hc => hkk hc.symm)] at e2
      obtain ⟨hh1, _⟩ := List.pairwise_cons.mp h1
      obtain ⟨hh2, _⟩ := List.pairwise_cons.mp h2
      have l21 := hh2 _ (mem_of_alookup_eq_some e1)
      have l12 := hh1 _ (mem_of_alookup_eq_some e2)
      have := htrans _ _ _ l12 l21
      rw [hirr k1] at this
      cases this

theorem asorted_foldl_sortedInsert
    (htot : ∀ a b : K, a ≠ b → lt a b = true ∨ lt b a = true)
    (htrans : ∀ a b c : K, lt a b = true → lt b c = true → lt a c = true)
    {l : List (K × V)} :
    ∀ {acc : List (K × V)}, ASorted lt acc →
      ASorted lt (l.foldl (fun f e => sortedInsert lt e.1 e.2 f) acc) := by
  induction l with
  | nil => intro acc hs; exact hs
  | cons p rest ih =>
    intro acc hs
    exact ih (asorted_sortedInsert htot htrans hs p.1 p.2)

theorem alookup_foldl_sortedInsert {l : List (K × V)} :
    ∀ {acc : List (K × V)} {j : K}, (akeys l).Nodup →
      alookup j (l.foldl (fun f e => sortedInsert lt e.1 e.2 f) acc) =
        (alookup j l).or (alookup j acc) := by
  induction l with
  | nil => intro acc j _; simp [alookup]
  | cons p rest ih =>
    intro acc j hn
    rw [akeys, List.map_cons, List.nodup_cons] at hn
    rw [List.foldl_cons, ih hn.2, alookup_sortedInsert]
    obtain ⟨k, v⟩ := p
    by_cases hj : j = k
    · subst hj
      rw [if_pos rfl, alookup, if_pos rfl,
        alookup_eq_none_of_not_mem_akeys (l := rest) hn.1]
      rfl
    · rw [if_neg hj, alookup, if_neg hj]

theorem sortedInsert_eq_append (hirr : ∀ a : K, lt a a = false)
    (htrans : ∀ a b c : K, lt a b = true → lt b c = true → lt a c = true)
    {k : K} {v : V} :
    ∀ {acc : List (K × V)}, (∀ p ∈ acc, lt p.1 k = true) →
      sortedInsert lt k v acc = acc ++ [(k, v)]
  | [], _ => rfl
  | (k', v') :: rest, hall => by
    have hk'k : lt k' k = true := hall (k', v') (List.mem_cons_self _ _)
    have hne : ¬ k = k' := by
      intro hc
      subst hc
      rw [hirr k] at hk'k
      cases hk'k
    have hnlt : ¬ lt k k' = true := by
      intro hc
      have := htrans _ _ _ hc hk'k
      rw [hirr k] at this
      cases this
    rw [sortedInsert, if_neg hne, if_neg hnlt,
      sortedInsert_eq_append hirr htrans (fun p hp => hall p (List.mem_cons_of_mem _ hp))]
    rfl

theorem foldl_sortedInsert_of_asorted (hirr : ∀ a : K, lt a a = false)
    (htrans : ∀ a b c : K, lt a b = true → lt b c = true → lt a c = true)
    {l : List (K × V)} :
    ∀ {acc : List (K × V)}, ASorted lt (acc ++ l) →
      l.foldl (fun f e => sortedInsert lt e.1 e.2 f) acc = acc ++ l := by
  induction l with
  | nil => intro acc _; simp
  | cons p rest ih =>
    intro acc hs
    have hall : ∀ q ∈ acc, lt q.1 p.1 = true := by
      intro q hq
      exact (List.pairwise_append.mp hs).2.2 q hq p (List.mem_cons_self _ _)
    rw [List.foldl_cons,
      show sortedInsert lt p.1 p.2 acc = acc ++ [p] by
        rw [sortedInsert_eq_append hirr htrans hall],
      ih (by simpa using hs)]
    simp

end SortedMachinery

/-! ## Comparator facts -/

theorem natLt_irrefl (a : Nat) : natLt a a = false := by simp [natLt]

theorem natLt_trans (a b c : Nat) (h1 : natLt a b = true) (h2 : natLt b c = true) :
    natLt a c = true := by
  simp only [natLt, decide_eq_true_eq] at *
  omega

theorem natLt_total (a b : Nat) (h : a ≠ b) : natLt a b = true ∨ natLt b a = true := by
  simp only [natLt, decide_eq_true_eq]
  omega

theorem bytesLt_irrefl (a : List Nat) : bytesLt a a = false := by
  induction a with
  | nil => rfl
  | cons x xs ih => simp [bytesLt, ih]

theorem bytesLt_cons_iff {x y : Nat} {xs ys : List Nat} :
    bytesLt (x :: xs) (y :: ys) = true ↔ x < y ∨ (x = y ∧ bytesLt xs ys = true) := by
  by_cases h1 : x < y
  · simp [bytesLt, h1]
  · by_cases h2 : y < x
    · simp [bytesLt, h1, h2, show ¬ x = y by omega]
    · have hxy : x = y := by omega
      subst hxy
      simp [bytesLt, h1]

theorem bytesLt_trans :
    ∀ (a b c : List Nat), bytesLt a b = true → bytesLt b c = true → bytesLt a c = true
  | [], [], _, hab, _ => by simp [bytesLt] at hab
  | [], _ :: _, [], _, hbc => by simp [bytesLt] at hbc
  | [], _ :: _, _ :: _, _, _ => rfl
  | _ :: _, [], _, hab, _ => by simp [bytesLt] at hab
  | _ :: _, _ :: _, [], _, hbc => by simp [bytesLt] at hbc
  | x :: xs, y :: ys, z :: zs, hab, hbc => by
    rw [bytesLt_cons_iff] at hab hbc ⊢
    rcases hab with hab | ⟨hab, habtail⟩
    · rcases hbc with hbc | ⟨hbc, _⟩
      · exact Or.inl (by omega)
      · exact Or.inl (by omega)
    · rcases hbc with hbc | ⟨hbc, hbctail⟩
      · exact Or.inl (by omega)
      · exact Or.inr ⟨by omega, bytesLt_trans xs ys zs habtail hbctail⟩

theorem bytesLt_total :
    ∀ (a b : List Nat), a ≠ b → bytesLt a b = true ∨ bytesLt b a = true
  | [], [], h => absurd rfl h
  | [], _ :: _, _ => Or.inl rfl
  | _ :: _, [], _ => Or.inr rfl
  | x :: xs, y :: ys, h => by
    by_cases hxy : x < y
    · exact Or.inl (bytesLt_cons_iff.mpr (Or.inl hxy))
    · by_cases hyx : y < x
      · exact Or.inr (bytesLt_cons_iff.mpr (Or.inl hyx))
      · have hxyeq : x = y := by omega
        subst hxyeq
        have htail : xs ≠ ys := fun hc => h (by rw [hc])
        rcases bytesLt_total xs ys htail with h' | h'
        · exact Or.inl (bytesLt_cons_iff.mpr (Or.inr ⟨rfl, h'⟩))
        · exact Or.inr (bytesLt_cons_iff.mpr (Or.inr ⟨rfl, h'⟩))

/-! ## C6: the password sentinel discards the whole target set -/

theorem plaintext_score_sentinel : plaintext_mime_score passwordSentinel = none := by decide

theorem is_image_sentinel : is_image_mime passwordSentinel = false := by decide

theorem filterGo_sentinel :
    ∀ (l : List (Nat × Str)) (filtered : List (Nat × Str)) (plain : Option (Nat × Str))
      (ps : Nat) (image : Option (Nat × Str)) (is_ : Nat),
      (∃ a, (a, passwordSentinel) ∈ l) →
      filterGo l filtered plain ps image is_ = []
  | [], _, _, _, _, _, h => by
    obtain ⟨a, ha⟩ := h
    simp at ha
  | (a0, m0) :: rest, filtered, plain, ps, image, is_, h => by
    by_cases hm : m0 = passwordSentinel
    · subst hm
      rw [filterGo]
      simp [plaintext_score_sentinel, is_image_sentinel]
    · have hrest : ∃ a, (a, passwordSentinel) ∈ rest := by
        obtain ⟨a, ha⟩ := h
        rcases List.mem_cons.mp ha with hc | hc
        · exact absurd (congrArg Prod.snd hc).symm hm
        · exact ⟨a, hc⟩
      rw [filterGo]
      cases hsc : plaintext_mime_score m0 with
      | some score =>
        dsimp only
        split
        · exact filterGo_sentinel rest _ _ _ _ _ hrest
        · exact filterGo_sentinel rest _ _ _ _ _ hrest
      | none =>
        by_cases himg : is_image_mime m0
        · rw [if_pos himg]
          dsimp only
          split
          · exact filterGo_sentinel rest _ _ _ _ _ hrest
          · exact filterGo_sentinel rest _ _ _ _ _ hrest
        · rw [if_neg (by simpa using himg), if_neg hm]
          exact filterGo_sentinel rest _ _ _ _ _ hrest

/-- C6: for every enumeration of a target set that contains the
password-manager sentinel MIME name `x-kde-passwordManagerHint`, whatever
other MIMEs are present, `filter_mimes` returns the empty set. -/
theorem claim_C6_password_sentinel (l : List (Nat × Str))
    (h : ∃ a, (a, passwordSentinel) ∈ l) : filter_mimes l = [] :=
  filterGo_sentinel l [] none 0 none 0 h

/-- C6 witness: a concrete target set with the sentinel plus other MIMEs
filters to the empty set. -/
theorem claim_C6_password_sentinel_witness :
    (∃ a, (a, passwordSentinel) ∈
        [(1, asciiBytes "text/plain"), (2, passwordSentinel), (3, asciiBytes "image/png")]) ∧
      filter_mimes
        [(1, asciiBytes "text/plain"), (2, passwordSentinel), (3, asciiBytes "image/png")] = [] :=
  ⟨⟨2, by simp⟩,
   claim_C6_password_sentinel _ ⟨2, by simp⟩⟩

/-! ## Lemmas about the capture data path -/

theorem mem_sortedInsert {K V : Type} [DecidableEq K] {lt : K → K → Bool}
    {k : K} {v : V} {l : List (K × V)} {p : K × V}
    (h : p ∈ sortedInsert lt k v l) : p = (k, v) ∨ p ∈ l := by
  induction l with
  | nil => simpa [sortedInsert] using h
  | cons q rest ih =>
    obtain ⟨k', v'⟩ := q
    by_cases hkk : k = k'
    · subst hkk
      rw [sortedInsert, if_pos rfl] at h
      rcases List.mem_cons.mp h with h | h
      · exact Or.inl h
      · exact Or.inr (List.mem_cons_of_mem _ h)
    · rw [sortedInsert, if_neg hkk] at h
      by_cases hlt : lt k k'
      · rw [if_pos hlt] at h
        rcases List.mem_cons.mp h with h | h
        · exact Or.inl h
        · exact Or.inr h
      · rw [if_neg hlt] at h
        rcases List.mem_cons.mp h with h | h
        · exact Or.inr (h ▸ List.mem_cons_self _ _)
        · rcases ih h with h | h
          · exact Or.inl h
          · exact Or.inr (List.mem_cons_of_mem _ h)

theorem accumulateValue_nonempty {d : SelectionData} {name : Option Str} {value : List Nat}
    (hd : DataValuesNonempty d) : DataValuesNonempty (accumulateValue d name value) := by
  cases name with
  | none => exact hd
  | some n =>
    rw [accumulateValue]
    by_cases hv : value.isEmpty
    · rw [if_pos hv]; exact hd
    · rw [if_neg hv]
      intro p hp
      rcases mem_sortedInsert hp with rfl | hp
      · simpa [List.isEmpty_iff] using hv
      · exact hd p hp

theorem foldl_accumulate_nonempty (steps : List (Option Str × List Nat)) :
    ∀ {d : SelectionData}, DataValuesNonempty d →
      DataValuesNonempty (steps.foldl (fun d s => accumulateValue d s.1 s.2) d) := by
  induction steps with
  | nil => intro d hd; exact hd
  | cons s rest ih =>
    intro d hd
    exact ih (accumulateValue_nonempty hd)

theorem contains_isSome {haystack needle : List Nat} (h : needle ≠ []) :
    (contains haystack needle).isSome := by
  rw [contains, if_neg (by simpa using h)]
  rfl

theorem mergeCheck_isSome (merge : Bool) (prevMeta : Option PrevItemMetadata)
    (items : List SelectionItem) (data : SelectionData) (owner now : Nat)
    (hhist : HistValuesNonempty items) (hdata : DataValuesNonempty data) :
    (mergeCheck merge prevMeta items.head? data owner now).isSome := by
  rw [mergeCheck.eq_def]
  by_cases hm : merge
  case neg => simp [hm]
  simp only [hm, Bool.not_true]
  rw [if_neg (by simp)]
  cases prevMeta with
  | none => rfl
  | some meta =>
    obtain ⟨po, pt, seen⟩ := meta
    dsimp only
    by_cases hpo : po ≠ owner
    · simp [hpo]
    rw [if_neg (by simpa using hpo)]
    by_cases ht : ¬ now - pt < ONE_SECOND
    · simp [ht]
    rw [if_neg (by simpa using ht)]
    cases seen with
    | true => simp
    | false =>
      rw [if_neg (by simp)]
      match hd : data with
      | [] => rfl
      | _ :: _ :: _ => rfl
      | [(mime, newText)] =>
        dsimp only
        by_cases hpl : ¬ is_plaintext_mime mime = true
        · simp [hpl]
        rw [if_neg (by simpa using hpl)]
        cases hh : items.head? with
        | none => rfl
        | some prevI =>
          dsimp only
          have hprevI : prevI ∈ items := by
            cases items with
            | nil => cases hh
            | cons a rest =>
              rw [List.head?_cons] at hh
              cases hh
              exact List.mem_cons_self _ _
          match hpd : prevI.data with
          | [] => rfl
          | _ :: _ :: _ => rfl
          | [(prevMime, prevText)] =>
            dsimp only
            by_cases hpm : prevMime ≠ mime
            · simp [hpm]
            rw [if_neg (by simpa using hpm)]
            have hnew : newText ≠ [] := by
              have := hdata (mime, newText) (List.mem_cons_self _ _)
              simpa using this
            have hprev : prevText ≠ [] := by
              have := hhist prevI hprevI (prevMime, prevText)
                (by rw [hpd]; exact List.mem_cons_self _ _)
              simpa using this
            cases hc1 : contains newText prevText with
            | none =>
              have := @contains_isSome newText prevText hprev
              rw [hc1] at this
              cases this
            | some b =>
              cases b with
              | true => rfl
              | false =>
                have := @contains_isSome prevText newText hnew
                cases hc2 : contains prevText newText with
                | none => rw [hc2] at this; cases this
                | some b2 => rfl

theorem removeById_length :
    ∀ {l : List SelectionItem} {nid : Nat} {x : SelectionItem} {rest : List SelectionItem},
      removeById l nid = some (x, rest) → rest.length + 1 = l.length := by
  intro l
  induction l with
  | nil => intro nid x rest h; cases h
  | cons i t ih =>
    intro nid x rest h
    rw [removeById] at h
    by_cases hid : i.id = nid
    · rw [if_pos hid] at h
      injection h with h
      injection h with h1 h2
      rw [← h2]
      rfl
    · rw [if_neg hid] at h
      cases hrt : removeById t nid with
      | none => rw [hrt] at h; cases h
      | some p =>
        obtain ⟨j, rest'⟩ := p
        rw [hrt] at h
        injection h with h
        injection h with h1 h2
        rw [← h2, List.length_cons, List.length_cons, ih hrt]

theorem removeById_id :
    ∀ {l : List SelectionItem} {nid : Nat} {x : SelectionItem} {rest : List SelectionItem},
      removeById l nid = some (x, rest) → x.id = nid := by
  intro l
  induction l with
  | nil => intro nid x rest h; cases h
  | cons i t ih =>
    intro nid x rest h
    rw [removeById] at h
    by_cases hid : i.id = nid
    · rw [if_pos hid] at h
      injection h with h
      injection h with h1 h2
      rw [← h1]
      exact hid
    · rw [if_neg hid] at h
      cases hrt : removeById t nid with
      | none => rw [hrt] at h; cases h
      | some p =>
        obtain ⟨j, rest'⟩ := p
        rw [hrt] at h
        injection h with h
        injection h with h1 h2
        rw [← h1]
        exact ih hrt

theorem removeById_perm :
    ∀ {l : List SelectionItem} {nid : Nat} {x : SelectionItem} {rest : List SelectionItem},
      removeById l nid = some (x, rest) → l.Perm (x :: rest) := by
  intro l
  induction l with
  | nil => intro nid x rest h; cases h
  | cons i t ih =>
    intro nid x rest h
    rw [removeById] at h
    by_cases hid : i.id = nid
    · rw [if_pos hid] at h
      injection h with h
      injection h with h1 h2
      rw [← h1, ← h2]
    · rw [if_neg hid] at h
      cases hrt : removeById t nid with
      | none => rw [hrt] at h; cases h
      | some p =>
        obtain ⟨j, rest'⟩ := p
        rw [hrt] at h
        injection h with h
        injection h with h1 h2
        rw [← h1, ← h2]
        exact (List.Perm.cons i (ih hrt)).trans (List.Perm.swap j i rest')

theorem removeById_none_iff {l : List SelectionItem} {nid : Nat} :
    removeById l nid = none ↔ ∀ i ∈ l, i.id ≠ nid := by
  induction l with
  | nil => simp [removeById]
  | cons i t ih =>
    rw [removeById]
    by_cases hid : i.id = nid
    · rw [if_pos hid]
      simp [hid]
    · rw [if_neg hid]
      cases hrt : removeById t nid with
      | none =>
        simp only [List.mem_cons]
        constructor
        · intro _ j hj
          rcases hj with rfl | hj
          · exact hid
          · exact (ih.mp hrt) j hj
        · intro _; trivial
      | some p =>
        obtain ⟨j, rest'⟩ := p
        simp only [List.mem_cons]
        constructor
        · intro hc; cases hc
        · intro hall
          exfalso
          have := ih.mpr (fun k hk => hall k (Or.inr hk))
          rw [this] at hrt
          cases hrt

theorem finalize_move {limit : Nat} {merge : Bool} {items : List SelectionItem}
    {prevMeta : Option PrevItemMetadata} {data : SelectionData} {owner now : Nat}
    {x : SelectionItem} {rest : List SelectionItem}
    (hne : data ≠ [])
    (hmc : mergeCheck merge prevMeta items.head? data owner now = some false)
    (hrb : removeById items (hash_selection_data data) = some (x, rest)) :
    finalize limit merge items prevMeta data owner now =
      some ⟨x :: rest, some (owner, now, true), some (none, [])⟩ := by
  rw [finalize.eq_def, if_neg (by simpa [List.isEmpty_iff] using hne)]
  dsimp only
  rw [hmc]
  simp [hrb]

theorem finalize_push_no_evict {limit : Nat} {merge : Bool} {items : List SelectionItem}
    {prevMeta : Option PrevItemMetadata} {data : SelectionData} {owner now : Nat}
    (hne : data ≠ [])
    (hmc : mergeCheck merge prevMeta items.head? data owner now = some false)
    (hrb : removeById items (hash_selection_data data) = none)
    (hlen : items.length + 1 ≤ limit) :
    finalize limit merge items prevMeta data owner now =
      some ⟨SelectionItem.mk (hash_selection_data data) data :: items,
            some (owner, now, false),
            some (some (SelectionItem.mk (hash_selection_data data) data), [])⟩ := by
  rw [finalize.eq_def, if_neg (by simpa [List.isEmpty_iff] using hne)]
  dsimp only
  rw [hmc]
  have hcond : ¬ (SelectionItem.mk (hash_selection_data data) data :: items).length > limit := by
    simp only [List.length_cons]
    omega
  simp [hrb, hcond]
  intro h
  exact absurd h (by omega)

theorem finalize_push_evict {limit : Nat} {merge : Bool} {items : List SelectionItem}
    {prevMeta : Option PrevItemMetadata} {data : SelectionData} {owner now : Nat}
    (hne : data ≠ [])
    (hmc : mergeCheck merge prevMeta items.head? data owner now = some false)
    (hrb : removeById items (hash_selection_data data) = none)
    (hlen : items.length + 1 > limit) :
    finalize limit merge items prevMeta data owner now =
      some ⟨(SelectionItem.mk (hash_selection_data data) data :: items).take limit,
            some (owner, now, false),
            some (((SelectionItem.mk (hash_selection_data data) data :: items).take limit).head?,
                  (SelectionItem.mk (hash_selection_data data) data :: items).drop limit)⟩ := by
  rw [finalize.eq_def, if_neg (by simpa [List.isEmpty_iff] using hne)]
  dsimp only
  rw [hmc]
  have hcond : (SelectionItem.mk (hash_selection_data data) data :: items).length > limit := by
    simp only [List.length_cons]
    omega
  simp [hrb, hcond]
  intro h
  exact absurd h (by omega)

theorem finalize_merge_push {limit : Nat} {merge : Bool} {items : List SelectionItem}
    {prevMeta : Option PrevItemMetadata} {data : SelectionData} {owner now : Nat}
    (hne : data ≠ [])
    (hmc : mergeCheck merge prevMeta items.head? data owner now = some true)
    (hrb : removeById items.tail (hash_selection_data data) = none)
    (hlen : items.tail.length + 1 ≤ limit) :
    finalize limit merge items prevMeta data owner now =
      some ⟨SelectionItem.mk (hash_selection_data data) data :: items.tail,
            some (owner, now, false),
            some (some (SelectionItem.mk (hash_selection_data data) data), items.take 1)⟩ := by
  rw [finalize.eq_def, if_neg (by simpa [List.isEmpty_iff] using hne)]
  dsimp only
  rw [hmc]
  have hcond : ¬ (SelectionItem.mk (hash_selection_data data) data :: items.tail).length > limit := by
    simp only [List.length_cons]
    omega
  have hlen' : items.length - 1 + 1 ≤ limit := by
    simpa [List.length_tail] using hlen
  simp [hrb, hcond]
  intro h
  exact absurd h (by omega)

theorem finalize_length {limit : Nat} {merge : Bool} {items : List SelectionItem}
    {prevMeta : Option PrevItemMetadata} {data : SelectionData} {owner now : Nat}
    {r : FinalizeResult}
    (hf : finalize limit merge items prevMeta data owner now = some r)
    (hlen : items.length ≤ limit) : r.items.length ≤ limit := by
  rw [finalize.eq_def] at hf
  by_cases hde : data.isEmpty
  · rw [if_pos hde] at hf
    injection hf with hf
    rw [← hf]
    exact hlen
  · rw [if_neg hde] at hf
    dsimp only at hf
    cases hmc : mergeCheck merge prevMeta items.head? data owner now with
    | none => rw [hmc] at hf; cases hf
    | some mergeB =>
      rw [hmc] at hf
      dsimp only at hf
      have hlen1 : (if mergeB = true then items.tail else items).length ≤ limit := by
        cases mergeB with
        | true =>
          have htl : items.tail.length ≤ items.length := by
            simp [List.length_tail]
          simpa using le_trans htl hlen
        | false => simpa using hlen
      set items1 := if mergeB = true then items.tail else items with hitems1
      cases hrb : removeById items1 (hash_selection_data data) with
      | some p =>
        obtain ⟨x, rest⟩ := p
        rw [hrb] at hf
        injection hf with hf
        rw [← hf]
        have := removeById_length hrb
        simp only [List.length_cons]
        omega
      | none =>
        rw [hrb] at hf
        dsimp only at hf
        by_cases hbig : (SelectionItem.mk (hash_selection_data data) data :: items1).length > limit
        · rw [if_pos hbig] at hf
          injection hf with hf
          rw [← hf]
          simp only [List.length_take]
          omega
        · rw [if_neg hbig] at hf
          injection hf with hf
          rw [← hf]
          simp only [List.length_cons] at hbig ⊢
          omega

/-! ## C10: inserted payloads are never empty; the merge guard is total -/

/-- C10: (1) a data map accumulated by `process_selection_data` from any
sequence of per-MIME replies has only non-empty payloads — an empty or
invalid payload is dropped before the map is stored, so every
`SelectionItem` inserted into the history satisfies this; (2) consequently,
on any history and candidate map satisfying that invariant, the merge
heuristic's substring check is never invoked with an empty needle: `finalize`
never hits the `contains` panic (is always `some`). -/
theorem claim_C10_nonempty_payloads :
    (∀ steps : List (Option Str × List Nat),
      DataValuesNonempty (steps.foldl (fun d s => accumulateValue d s.1 s.2) [])) ∧
    (∀ (limit : Nat) (merge : Bool) (items : List SelectionItem)
        (prevMeta : Option PrevItemMetadata) (data : SelectionData) (owner now : Nat),
      HistValuesNonempty items → DataValuesNonempty data →
      (finalize limit merge items prevMeta data owner now).isSome) := by
  constructor
  · intro steps
    exact foldl_accumulate_nonempty steps (by intro p hp; cases hp)
  · intro limit merge items prevMeta data owner now hh hd
    rw [finalize.eq_def]
    by_cases hde : data.isEmpty
    · rw [if_pos hde]; rfl
    · rw [if_neg hde]
      dsimp only
      have hms := mergeCheck_isSome merge prevMeta items data owner now hh hd
      cases hmc : mergeCheck merge prevMeta items.head? data owner now with
      | none => rw [hmc] at hms; cases hms
      | some b =>
        dsimp only
        cases hrb : removeById (if b = true then items.tail else items)
            (hash_selection_data data) with
        | some p =>
          obtain ⟨x, rest⟩ := p
          rfl
        | none =>
          dsimp only
          split
          · split <;> rfl
          · split <;> rfl

/-- C10 witness: a concrete reply sequence (including an empty payload that
is dropped) yields a map with non-empty payloads only, and a concrete
finalize on a non-empty-payload history is `some`. -/
theorem claim_C10_nonempty_payloads_witness :
    DataValuesNonempty
      ([(some [116], [104, 105]), (none, [9]), (some [117], [])].foldl
        (fun d s => accumulateValue d s.1 s.2) []) ∧
    (HistValuesNonempty [SelectionItem.mk 3 [([116], [104])]] ∧
      DataValuesNonempty [([116], [104, 105])] ∧
      (finalize 100 true [SelectionItem.mk 3 [([116], [104])]] (some (7, 0, false))
        [([116], [104, 105])] 7 500).isSome) :=
  ⟨claim_C10_nonempty_payloads.1 _,
   by decide,
   by decide,
   claim_C10_nonempty_payloads.2 100 true _ _ _ 7 500 (by decide) (by decide)⟩

/-! ## C1: the eviction bound -/

/-- C1: for every sequence of completed captures run through finalize from a
history within the limit, the history length stays `≤ item_limit` after every
finalize; and when a fresh item is pushed while the length exceeds the limit,
the history is truncated to the first `item_limit` entries and everything
beyond position `item_limit` is returned in the removed-items list. -/
theorem claim_C1_eviction_bound (itemLimit : Nat) (merge : Bool) :
    (∀ (st : CaptureHistState) (steps : List (SelectionData × Nat × Nat))
        (st' : CaptureHistState),
      st.items.length ≤ itemLimit →
      runCaptures itemLimit merge st steps = some st' →
      st'.items.length ≤ itemLimit) ∧
    (∀ (items : List SelectionItem) (prevMeta : Option PrevItemMetadata)
        (data : SelectionData) (owner now : Nat) (r : FinalizeResult),
      data ≠ [] →
      mergeCheck merge prevMeta items.head? data owner now = some false →
      (∀ i ∈ items, i.id ≠ hash_selection_data data) →
      items.length + 1 > itemLimit →
      finalize itemLimit merge items prevMeta data owner now = some r →
      r.items = (SelectionItem.mk (hash_selection_data data) data :: items).take itemLimit ∧
        r.notification = some (r.items.head?,
          (SelectionItem.mk (hash_selection_data data) data :: items).drop itemLimit)) := by
  constructor
  · intro st steps
    induction steps generalizing st with
    | nil =>
      intro st' hlen hrun
      rw [runCaptures] at hrun
      injection hrun with hrun
      rw [← hrun]
      exact hlen
    | cons step rest ih =>
      intro st' hlen hrun
      obtain ⟨data, owner, now⟩ := step
      rw [runCaptures] at hrun
      cases hf : finalize itemLimit merge st.items st.prevMeta data owner now with
      | none => rw [hf] at hrun; cases hrun
      | some r =>
        rw [hf] at hrun
        exact ih ⟨r.items, r.prevMeta⟩ st' (finalize_length hf hlen) hrun
  · intro items prevMeta data owner now r hne hmc hfresh hbig hf
    rw [finalize_push_evict hne hmc (removeById_none_iff.mpr hfresh) hbig] at hf
    injection hf with hf
    rw [← hf]
    exact ⟨rfl, rfl⟩

/-- C1 witness: a two-capture run from the empty history stays within limit
2; and a finalize over a full 2-item history with limit 1 truncates to the
first entry and reports the tail as removed. -/
theorem claim_C1_eviction_bound_witness :
    ((⟨[], none⟩ : CaptureHistState).items.length ≤ 2 ∧
      runCaptures 2 false ⟨[], none⟩ [([([116], [104])], 7, 0)] =
        some ⟨[SelectionItem.mk (hash_selection_data [([116], [104])]) [([116], [104])]],
              some (7, 0, false)⟩ ∧
      ([SelectionItem.mk (hash_selection_data [([116], [104])]) [([116], [104])]] :
        List SelectionItem).length ≤ 2) ∧
    (([([116], [104])] : SelectionData) ≠ [] ∧
      mergeCheck false none (([SelectionItem.mk 1 [([9], [9])], SelectionItem.mk 2 [([9], [8])]] :
          List SelectionItem).head?) [([116], [104])] 7 5 = some false ∧
      (∀ i ∈ ([SelectionItem.mk 1 [([9], [9])], SelectionItem.mk 2 [([9], [8])]] :
          List SelectionItem), i.id ≠ hash_selection_data [([116], [104])]) ∧
      ([SelectionItem.mk 1 [([9], [9])], SelectionItem.mk 2 [([9], [8])]] :
          List SelectionItem).length + 1 > 1 ∧
      finalize 1 false [SelectionItem.mk 1 [([9], [9])], SelectionItem.mk 2 [([9], [8])]]
          none [([116], [104])] 7 5 =
        some ⟨[SelectionItem.mk (hash_selection_data [([116], [104])]) [([116], [104])]],
              some (7, 5, false),
              some (some (SelectionItem.mk (hash_selection_data [([116], [104])]) [([116], [104])]),
                    [SelectionItem.mk 1 [([9], [9])], SelectionItem.mk 2 [([9], [8])]])⟩ ∧
      ([SelectionItem.mk (hash_selection_data [([116], [104])]) [([116], [104])]] :
          List SelectionItem) =
        (SelectionItem.mk (hash_selection_data [([116], [104])]) [([116], [104])] ::
          [SelectionItem.mk 1 [([9], [9])], SelectionItem.mk 2 [([9], [8])]]).take 1) := by
  refine ⟨⟨by decide, by decide, by decide⟩, by decide, by decide, ?_, by decide, by decide, ?_⟩
  · intro i hi
    fin_cases hi <;> decide
  · exact ((claim_C1_eviction_bound 1 false).2
      [SelectionItem.mk 1 [([9], [9])], SelectionItem.mk 2 [([9], [8])]] none
      [([116], [104])] 7 5
      ⟨[SelectionItem.mk (hash_selection_data [([116], [104])]) [([116], [104])]],
        some (7, 5, false),
        some (some (SelectionItem.mk (hash_selection_data [([116], [104])]) [([116], [104])]),
              [SelectionItem.mk 1 [([9], [9])], SelectionItem.mk 2 [([9], [8])]])⟩
      (by decide) (by decide) (by intro i hi; fin_cases hi <;> decide) (by decide)
      (by decide)).1

/-! ## C2: content-id determinism and duplicate re-surfacing -/

theorem buildSelectionData_perm {l1 l2 : List (Str × List Nat)}
    (hn : (l1.map Prod.fst).Nodup) (hp : l1.Perm l2) :
    buildSelectionData l1 = buildSelectionData l2 := by
  have hn1 : (akeys l1).Nodup := hn
  have hn2 : (akeys l2).Nodup := ((hp.map Prod.fst).nodup_iff).mp hn
  have hs1 : ASorted bytesLt (buildSelectionData l1) :=
    asorted_foldl_sortedInsert bytesLt_total bytesLt_trans List.Pairwise.nil
  have hs2 : ASorted bytesLt (buildSelectionData l2) :=
    asorted_foldl_sortedInsert bytesLt_total bytesLt_trans List.Pairwise.nil
  apply asorted_ext bytesLt_irrefl bytesLt_trans hs1 hs2
  intro j
  show alookup j (l1.foldl (fun f e => sortedInsert bytesLt e.1 e.2 f) []) =
    alookup j (l2.foldl (fun f e => sortedInsert bytesLt e.1 e.2 f) [])
  rw [alookup_foldl_sortedInsert hn1, alookup_foldl_sortedInsert hn2, alookup_perm hn1 hp]

/-- C2: (1) building the data map from the same set of `(MIME, bytes)` pairs
in any discovery order yields the same `BTreeMap` and hence the same content
id (`hash_selection_data` is a function of the sorted map); (2) a finalize
whose content id already exists in the history (and in which the merge guard
did not fire) moves the existing item to the front instead of inserting a
duplicate: the result is a permutation of the old history with the matching
item first, the length is unchanged, and no new item is reported. -/
theorem claim_C2_idempotent_recapture :
    (∀ (l1 l2 : List (Str × List Nat)),
      (l1.map Prod.fst).Nodup → l1.Perm l2 →
      buildSelectionData l1 = buildSelectionData l2 ∧
        hash_selection_data (buildSelectionData l1) =
          hash_selection_data (buildSelectionData l2)) ∧
    (∀ (limit : Nat) (merge : Bool) (items : List SelectionItem)
        (prevMeta : Option PrevItemMetadata) (data : SelectionData) (owner now : Nat)
        (x : SelectionItem) (rest : List SelectionItem),
      data ≠ [] →
      mergeCheck merge prevMeta items.head? data owner now = some false →
      removeById items (hash_selection_data data) = some (x, rest) →
      finalize limit merge items prevMeta data owner now =
          some ⟨x :: rest, some (owner, now, true), some (none, [])⟩ ∧
        x.id = hash_selection_data data ∧
        items.Perm (x :: rest) ∧
        (x :: rest).length = items.length) := by
  constructor
  · intro l1 l2 hn hp
    have heq := buildSelectionData_perm hn hp
    exact ⟨heq, by rw [heq]⟩
  · intro limit merge items prevMeta data owner now x rest hne hmc hrb
    refine ⟨finalize_move hne hmc hrb, removeById_id hrb, removeById_perm hrb, ?_⟩
    have := removeById_length hrb
    simp only [List.length_cons]
    omega

/-- C2 witness: two enumerations of the same two-MIME map build the same map
and id; a finalize of already-present content on a concrete one-item history
re-surfaces the item without growing the history. -/
theorem claim_C2_idempotent_recapture_witness :
    (([([97], [1]), ([98], [2])] : List (Str × List Nat)).map Prod.fst).Nodup ∧
    ([([97], [1]), ([98], [2])] : List (Str × List Nat)).Perm [([98], [2]), ([97], [1])] ∧
    buildSelectionData [([97], [1]), ([98], [2])] =
      buildSelectionData [([98], [2]), ([97], [1])] ∧
    (([([116], [104])] : SelectionData) ≠ [] ∧
      mergeCheck false none
          (([SelectionItem.mk (hash_selection_data [([116], [104])]) [([116], [104])]] :
            List SelectionItem).head?) [([116], [104])] 7 5 = some false ∧
      removeById [SelectionItem.mk (hash_selection_data [([116], [104])]) [([116], [104])]]
          (hash_selection_data [([116], [104])]) =
        some (SelectionItem.mk (hash_selection_data [([116], [104])]) [([116], [104])], []) ∧
      finalize 100 false [SelectionItem.mk (hash_selection_data [([116], [104])]) [([116], [104])]]
          none [([116], [104])] 7 5 =
        some ⟨[SelectionItem.mk (hash_selection_data [([116], [104])]) [([116], [104])]],
              some (7, 5, true), some (none, [])⟩ ∧
      ([SelectionItem.mk (hash_selection_data [([116], [104])]) [([116], [104])]] :
        List SelectionItem).length =
        ([SelectionItem.mk (hash_selection_data [([116], [104])]) [([116], [104])]] :
          List SelectionItem).length) := by
  refine ⟨by decide, by decide,
    (claim_C2_idempotent_recapture.1 _ _ (by decide) (by decide)).1,
    by decide, by decide, by decide, ?_, rfl⟩
  exact (claim_C2_idempotent_recapture.2 100 false _ none [([116], [104])] 7 5 _ []
    (by decide) (by decide) (by decide)).1

/-! ## C5: the PRIMARY merge heuristic -/

theorem mergeCheck_true {prevI : SelectionItem} {mime : Str}
    {newText prevText : List Nat} {owner pt now : Nat}
    (hpl : is_plaintext_mime mime = true)
    (hpd : prevI.data = [(mime, prevText)])
    (ht : now - pt < ONE_SECOND)
    (hprev : prevText ≠ []) (hnew : newText ≠ [])
    (hc : ((contains newText prevText).getD false ||
      (contains prevText newText).getD false) = true) :
    mergeCheck true (some (owner, pt, false)) (some prevI) [(mime, newText)] owner now =
      some true := by
  rw [mergeCheck.eq_def]
  rw [if_neg (by simp)]
  try dsimp only
  rw [if_neg (by simp), if_neg (by simpa using ht), if_neg (by simp)]
  try dsimp only
  rw [if_neg (by simpa using hpl)]
  rw [hpd]
  try dsimp only
  rw [if_neg (by simp)]
  cases hc1 : contains newText prevText with
  | none =>
    have := @contains_isSome newText prevText hprev
    rw [hc1] at this
    cases this
  | some b1 =>
    cases b1 with
    | true => rfl
    | false =>
      cases hc2 : contains prevText newText with
      | none =>
        have := @contains_isSome prevText newText hnew
        rw [hc2] at this
        cases this
      | some b2 =>
        cases b2 with
        | true => rfl
        | false =>
          rw [hc1, hc2] at hc
          simp at hc

/-- C5: a PRIMARY-mode (merge-enabled) capture of a single plaintext MIME
whose immediately preceding capture came from the same owner less than one
second earlier and was not a re-surfaced duplicate, where the previous front
item holds exactly one entry under the same MIME and one text is a
byte-substring of the other, removes that previous front item (reporting it
in the removed list) and replaces it with the new capture, leaving the
history length unchanged. -/
theorem claim_C5_primary_merge (limit : Nat) (prevItem : SelectionItem)
    (tail : List SelectionItem) (pt : Nat) (mime : Str)
    (newText prevText : List Nat) (owner now : Nat)
    (hpl : is_plaintext_mime mime = true)
    (hpd : prevItem.data = [(mime, prevText)])
    (ht : now - pt < ONE_SECOND)
    (hprev : prevText ≠ []) (hnew : newText ≠ [])
    (hc : ((contains newText prevText).getD false ||
      (contains prevText newText).getD false) = true)
    (hfresh : ∀ i ∈ tail, i.id ≠ hash_selection_data [(mime, newText)])
    (hlen : tail.length + 1 ≤ limit) :
    finalize limit true (prevItem :: tail) (some (owner, pt, false))
        [(mime, newText)] owner now =
      some ⟨SelectionItem.mk (hash_selection_data [(mime, newText)]) [(mime, newText)] :: tail,
            some (owner, now, false),
            some (some (SelectionItem.mk (hash_selection_data [(mime, newText)])
                [(mime, newText)]), [prevItem])⟩ := by
  have hmc : mergeCheck true (some (owner, pt, false)) (prevItem :: tail).head?
      [(mime, newText)] owner now = some true := by
    rw [List.head?_cons]
    exact mergeCheck_true hpl hpd ht hprev hnew hc
  exact finalize_merge_push (by simp) hmc (removeById_none_iff.mpr hfresh) (by simpa using hlen)

/-- C5 witness: a concrete drag-extension capture (`"hi"` extending `"h"`
under `text/plain` from the same owner within the window) collapses into a
single entry. -/
theorem claim_C5_primary_merge_witness :
    is_plaintext_mime (asciiBytes "text/plain") = true ∧
    (SelectionItem.mk 3 [(asciiBytes "text/plain", [104])]).data =
      [(asciiBytes "text/plain", [104])] ∧
    (500 : Nat) - 0 < ONE_SECOND ∧
    (((contains [104, 105] [104]).getD false ||
      (contains [104] [104, 105]).getD false) = true) ∧
    finalize 100 true [SelectionItem.mk 3 [(asciiBytes "text/plain", [104])]]
        (some (7, 0, false)) [(asciiBytes "text/plain", [104, 105])] 7 500 =
      some ⟨[SelectionItem.mk (hash_selection_data [(asciiBytes "text/plain", [104, 105])])
              [(asciiBytes "text/plain", [104, 105])]],
            some (7, 500, false),
            some (some (SelectionItem.mk
                (hash_selection_data [(asciiBytes "text/plain", [104, 105])])
                [(asciiBytes "text/plain", [104, 105])]),
              [SelectionItem.mk 3 [(asciiBytes "text/plain", [104])]])⟩ := by
  refine ⟨by decide, rfl, by decide, by decide, ?_⟩
  exact claim_C5_primary_merge 100 (SelectionItem.mk 3 [(asciiBytes "text/plain", [104])]) []
    0 (asciiBytes "text/plain") [104, 105] [104] 7 500
    (by decide) rfl (by decide) (by decide) (by decide) (by decide)
    (by intro i hi; cases hi) (by decide)

/-! ## C3: outbound INCR round trip -/

theorem getLast?_cons_of_ne_nil {α : Type} (c : α) {l : List α} (h : l ≠ []) :
    (c :: l).getLast? = l.getLast? := by
  cases l with
  | nil => exact absurd rfl h
  | cons a t => exact List.getLast?_cons_cons ..

theorem flatten_filter_nonempty {α : Type} :
    ∀ l : List (List α), (l.filter (fun c => !c.isEmpty)).flatten = l.flatten
  | [] => rfl
  | c :: rest => by
    cases c with
    | nil =>
      rw [List.filter_cons]
      simp only [List.isEmpty_nil, Bool.not_true, Bool.false_eq_true, if_false]
      rw [flatten_filter_nonempty rest, List.flatten_cons, List.nil_append]
    | cons a t =>
      rw [List.filter_cons]
      simp only [List.isEmpty_cons, Bool.not_false, if_true]
      rw [List.flatten_cons, List.flatten_cons, flatten_filter_nonempty rest]

theorem incrPasteRun_spec {items : List SelectionItem} {itemId : Nat} {name : Str}
    {data : List Nat} {target : Nat}
    (hfind : findItemData items itemId name = some data) :
    ∀ (fuel offset : Nat), offset ≤ data.length → data.length - offset < fuel →
      (incrPasteRun items ⟨target, itemId, name, offset⟩ fuel).2 = true ∧
      (incrPasteRun items ⟨target, itemId, name, offset⟩ fuel).1.flatten = data.drop offset ∧
      (∀ c ∈ (incrPasteRun items ⟨target, itemId, name, offset⟩ fuel).1,
        c.length ≤ INCR_CHUNK_SIZE) ∧
      (incrPasteRun items ⟨target, itemId, name, offset⟩ fuel).1.getLast? = some [] := by
  intro fuel
  induction fuel with
  | zero =>
    intro offset _ hfuel
    exact absurd hfuel (by omega)
  | succ fuel ih =>
    intro offset hoff hfuel
    have hstep : incrPasteStep items ⟨target, itemId, name, offset⟩ =
        (if offset = min (offset + INCR_CHUNK_SIZE) data.length then none
         else some ⟨target, itemId, name, min (offset + INCR_CHUNK_SIZE) data.length⟩,
         (data.drop offset).take (min (offset + INCR_CHUNK_SIZE) data.length - offset)) := by
      rw [incrPasteStep, hfind]
      dsimp only
      split <;> rfl
    by_cases hend : offset = data.length
    · have hmin : min (offset + INCR_CHUNK_SIZE) data.length = offset := by omega
      rw [incrPasteRun, hstep, hmin, if_pos rfl]
      have hchunk : (data.drop offset).take (offset - offset) = [] := by
        simp
      rw [hchunk]
      refine ⟨rfl, by simp [hend], ?_, rfl⟩
      intro c hc
      rcases List.mem_singleton.mp hc with rfl
      simp [INCR_CHUNK_SIZE]
    · have hlt : offset < data.length := by omega
      set e := min (offset + INCR_CHUNK_SIZE) data.length with he
      have hoe : offset < e := by
        rw [he]
        have : 0 < INCR_CHUNK_SIZE := by decide
        omega
      have hee : e ≤ data.length := by omega
      rw [incrPasteRun, hstep, if_neg (by omega)]
      dsimp only
      obtain ⟨hfin, hflat, hlens, hlast⟩ :=
        ih e hee (by omega)
      refine ⟨hfin, ?_, ?_, ?_⟩
      · rw [List.flatten_cons, hflat]
        have hdd : data.drop e = (data.drop offset).drop (e - offset) := by
          rw [List.drop_drop]
          congr 1
          omega
        rw [hdd, List.take_append_drop]
      · intro c hc
        rcases List.mem_cons.mp hc with rfl | hc
        · calc ((data.drop offset).take (e - offset)).length ≤ e - offset :=
                by simp
            _ ≤ INCR_CHUNK_SIZE := by omega
        · exact hlens c hc
      · rw [getLast?_cons_of_ne_nil _ (by
          intro hc
          rw [hc] at hlast
          cases hlast)]
        exact hlast

/-- C3: serving an item payload larger than the INCR chunk threshold from an
`announceIncr` task emits, over the property-delete acknowledgements, a
sequence of chunks each at most `INCR_CHUNK_SIZE` (≈1 MiB) ending with an
empty chunk that tears the task down; the concatenation of the non-empty
chunks is exactly the original payload.  If the item has disappeared from
the history, a step terminates the transfer with an empty chunk instead of
an error. -/
theorem claim_C3_incr_roundtrip :
    (∀ (items : List SelectionItem) (itemId target : Nat) (name : Str)
        (data : List Nat) (fuel : Nat),
      findItemData items itemId name = some data →
      data.length > INCR_CHUNK_SIZE →
      data.length < fuel →
      (incrPasteRun items (announceIncr target itemId name) fuel).2 = true ∧
        ((incrPasteRun items (announceIncr target itemId name) fuel).1.filter
          (fun c => !c.isEmpty)).flatten = data ∧
        (∀ c ∈ (incrPasteRun items (announceIncr target itemId name) fuel).1,
          c.length ≤ INCR_CHUNK_SIZE) ∧
        (incrPasteRun items (announceIncr target itemId name) fuel).1.getLast? = some []) ∧
    (∀ (items : List SelectionItem) (t : IncrPasteTask),
      findItemData items t.item_id t.data_atom_name = none →
      incrPasteStep items t = (none, [])) := by
  constructor
  · intro items itemId target name data fuel hfind hbig hfuel
    obtain ⟨hfin, hflat, hlens, hlast⟩ :=
      incrPasteRun_spec hfind fuel 0 (by omega) (by omega)
    have hflat' : (incrPasteRun items (announceIncr target itemId name) fuel).1.flatten =
        data.drop 0 := hflat
    refine ⟨hfin, ?_, hlens, hlast⟩
    rw [flatten_filter_nonempty, hflat', List.drop_zero]
  · intro items t hmiss
    rw [incrPasteStep, hmiss]

/-- C3 witness: a payload one byte over the chunk size round-trips through
the chunked transfer; a task for a vanished item steps to teardown with an
empty chunk. -/
theorem claim_C3_incr_roundtrip_witness :
    findItemData c3Items 5 [97] = some c3Data ∧
    c3Data.length > INCR_CHUNK_SIZE ∧
    c3Data.length < c3Data.length + 1 ∧
    (((incrPasteRun c3Items (announceIncr 2 5 [97]) (c3Data.length + 1)).1.filter
        (fun c => !c.isEmpty)).flatten = c3Data ∧
      (incrPasteRun c3Items (announceIncr 2 5 [97]) (c3Data.length + 1)).1.getLast? = some []) ∧
    incrPasteStep c3Items ⟨2, 99, [97], 0⟩ = (none, []) := by
  have hfind : findItemData c3Items 5 [97] = some c3Data := by
    simp only [findItemData, c3Items]
    simp [alookup]
  have hbig : c3Data.length > INCR_CHUNK_SIZE := by
    rw [c3Data, List.length_replicate]
    decide
  have hmain := claim_C3_incr_roundtrip.1 c3Items 5 2 [97] c3Data (c3Data.length + 1)
    hfind hbig (by omega)
  refine ⟨hfind, hbig, by omega, ⟨hmain.2.1, hmain.2.2.2⟩, ?_⟩
  exact claim_C3_incr_roundtrip.2 c3Items ⟨2, 99, [97], 0⟩ (by
    simp only [findItemData, c3Items]
    simp)

/-! ## C4: inbound INCR size abort

The source (selection.rs lines 467-473) removes the `RequestTask` when the
running total would exceed `MAX_INCR_SIZE`, but never calls
`transfer_windows.release` for the window that task held — and since purge
only releases windows of tasks still in the map, the window is never
returned to the pool.  The theorems below show the abort path drops the task
and adds no item while leaving the pool exactly as it was. -/

theorem incrCaptureChunk_overflow {st : CaptureEngineState} {win : Nat}
    {mimes : List (Nat × Str)} {data : SelectionData} {atom : Nat} {name : Str}
    {buffer chunk : List Nat} {meta : Nat × Nat}
    (hl : alookup win st.request_tasks =
      some (RequestTaskState.pendingIncr mimes data atom name buffer, meta))
    (hover : buffer.length + chunk.length > MAX_INCR_SIZE) :
    incrCaptureChunk st win chunk =
      { st with request_tasks := removeKey win st.request_tasks } := by
  rw [incrCaptureChunk.eq_def, hl]
  dsimp only
  rw [if_pos hover]

/-- C4 evidence: on an arriving chunk that pushes a `PendingIncr` buffer past
`MAX_INCR_SIZE`, the task is removed and the history untouched, but the
`TransferWindowPool` is unchanged — `release_count` stays `0` and the window
list stays empty, i.e. the `TransferWindow` held by the aborted transfer is
never released back to the pool (`TransferWindowPool.release` is not
invoked), contradicting the claimed release of resources. -/
theorem claim_C4_incr_abort_keeps_pool_unchanged :
    (incrCaptureChunk c4State 7 [0]).request_tasks = [] ∧
    (incrCaptureChunk c4State 7 [0]).transfer_windows = c4State.transfer_windows ∧
    (incrCaptureChunk c4State 7 [0]).transfer_windows.release_count = 0 ∧
    (incrCaptureChunk c4State 7 [0]).transfer_windows.windows = [] ∧
    (incrCaptureChunk c4State 7 [0]).items = [] := by
  have hl : alookup 7 c4State.request_tasks =
      some (RequestTaskState.pendingIncr [] [] 9 [97] (List.replicate MAX_INCR_SIZE 0),
        (5, 3)) := rfl
  have hover : (List.replicate MAX_INCR_SIZE 0).length + ([0] : List Nat).length >
      MAX_INCR_SIZE := by
    rw [List.length_replicate]
    decide
  rw [incrCaptureChunk_overflow hl hover]
  exact ⟨rfl, rfl, rfl, rfl, rfl⟩

/-! ## C9: the `OrderedHashMap` key invariant -/

theorem alookup_isSome_iff_mem {K V : Type} [DecidableEq K] {l : List (K × V)} {j : K} :
    (alookup j l).isSome ↔ j ∈ akeys l := by
  constructor
  · exact mem_akeys_of_alookup_isSome
  · intro hm
    induction l with
    | nil => simp [akeys] at hm
    | cons p rest ih =>
      obtain ⟨k', v'⟩ := p
      by_cases hj : j = k'
      · rw [alookup, if_pos hj]
        rfl
      · rw [alookup, if_neg hj]
        refine ih ?_
        simpa [akeys, hj] using hm

theorem akeys_setKey {K V : Type} [DecidableEq K] (k : K) (v : V) :
    ∀ l : List (K × V), akeys (setKey k v l) = akeys l
  | [] => rfl
  | (k', v') :: rest => by
    rw [setKey]
    by_cases hk : k' = k
    · rw [if_pos hk]
      rfl
    · rw [if_neg hk]
      show k' :: akeys (setKey k v rest) = k' :: akeys rest
      rw [akeys_setKey k v rest]

theorem removeKey_sublist {K V : Type} [DecidableEq K] (k : K) :
    ∀ l : List (K × V), (removeKey k l).Sublist l
  | [] => List.Sublist.refl _
  | (k', v') :: rest => by
    rw [removeKey]
    by_cases hk : k' = k
    · rw [if_pos hk]
      exact (List.sublist_cons_self _ _)
    · rw [if_neg hk]
      exact (removeKey_sublist k rest).cons₂ _

theorem foldl_removeKey_sublist {K V : Type} [DecidableEq K] :
    ∀ (ks : List K) (m : List (K × V)),
      (ks.foldl (fun acc k => removeKey k acc) m).Sublist m
  | [], _ => List.Sublist.refl _
  | k :: rest, m => by
    rw [List.foldl_cons]
    exact (foldl_removeKey_sublist rest (removeKey k m)).trans (removeKey_sublist k m)

theorem alookup_removeKey {K V : Type} [DecidableEq K] {l : List (K × V)}
    (hn : (akeys l).Nodup) (k j : K) :
    alookup j (removeKey k l) = if j = k then none else alookup j l := by
  induction l with
  | nil => simp [removeKey, alookup]
  | cons p rest ih =>
    obtain ⟨k', v'⟩ := p
    rw [akeys, List.map_cons, List.nodup_cons] at hn
    rw [removeKey]
    by_cases hk : k' = k
    · subst hk
      rw [if_pos rfl]
      by_cases hj : j = k'
      · subst hj
        rw [if_pos rfl, alookup_eq_none_of_not_mem_akeys hn.1]
      · rw [if_neg hj, alookup, if_neg hj]
    · rw [if_neg hk]
      by_cases hj : j = k'
      · have hjk : j ≠ k := fun hc => hk (hj ▸ hc)
        rw [alookup, if_pos hj, if_neg hjk, alookup, if_pos hj]
      · rw [alookup, if_neg hj, ih hn.2]
        by_cases hjk : j = k
        · rw [if_pos hjk, if_pos hjk]
        · rw [if_neg hjk, if_neg hjk, alookup, if_neg hj]

theorem akeys_mapInsert_nodup {K V : Type} [DecidableEq K] {l : List (K × V)} {k : K} {v : V}
    (hn : (akeys l).Nodup) : (akeys (OrderedHashMap.mapInsert k v l)).Nodup := by
  rw [OrderedHashMap.mapInsert]
  by_cases hp : (alookup k l).isSome
  · rw [if_pos hp, akeys_setKey]
    exact hn
  · rw [if_neg hp]
    have : akeys (l ++ [(k, v)]) = akeys l ++ [k] := by simp [akeys]
    rw [this]
    refine List.Nodup.append hn (List.nodup_singleton k) ?_
    intro a ha hb
    rcases List.mem_singleton.mp hb with rfl
    exact hp (alookup_isSome_iff_mem.mpr ha)

theorem alookup_mapInsert_isSome {K V : Type} [DecidableEq K]
    {l : List (K × V)} {k j : K} {v : V} :
    (alookup j (OrderedHashMap.mapInsert k v l)).isSome ↔ j = k ∨ (alookup j l).isSome := by
  rw [OrderedHashMap.mapInsert]
  by_cases hp : (alookup k l).isSome
  · rw [if_pos hp]
    rw [alookup_isSome_iff_mem, akeys_setKey, ← alookup_isSome_iff_mem]
    constructor
    · exact Or.inr
    · rintro (rfl | h)
      · exact hp
      · exact h
  · rw [if_neg hp]
    rw [alookup_isSome_iff_mem, alookup_isSome_iff_mem]
    have : akeys (l ++ [(k, v)]) = akeys l ++ [k] := by simp [akeys]
    rw [this, List.mem_append, List.mem_singleton]
    tauto

theorem alookup_foldl_removeKey {K V : Type} [DecidableEq K] {j : K} :
    ∀ (ks : List K) {m : List (K × V)}, (akeys m).Nodup →
      alookup j (ks.foldl (fun acc k => removeKey k acc) m) =
        if j ∈ ks then none else alookup j m
  | [], m, _ => by simp
  | k :: rest, m, hn => by
    rw [List.foldl_cons]
    have hn' : (akeys (removeKey k m)).Nodup :=
      ((removeKey_sublist k m).map Prod.fst).nodup hn
    rw [alookup_foldl_removeKey rest hn', alookup_removeKey hn k j]
    by_cases hjr : j ∈ rest
    · simp [hjr]
    · by_cases hjk : j = k
      · simp [hjr, hjk]
      · simp [hjr, hjk]

theorem insertIdx_perm {α : Type} (a : α) :
    ∀ (n : Nat) (l : List α), n ≤ l.length → (l.insertIdx n a).Perm (a :: l)
  | 0, l, _ => by simp
  | n + 1, [], h => by simp at h
  | n + 1, x :: xs, h => by
    rw [List.insertIdx_succ_cons]
    exact (List.Perm.cons x (insertIdx_perm a n xs (by simpa using h))).trans
      (List.Perm.swap a x xs)

theorem rik_spec {K V : Type} [DecidableEq K] {m : OrderedHashMap K V} {k : K}
    (h : OhmInv m) :
    (m.remove_in_keys k).map = m.map ∧ (m.remove_in_keys k).keys.Nodup ∧
      k ∉ (m.remove_in_keys k).keys ∧
      ∀ j, j ≠ k → ((j ∈ (m.remove_in_keys k).keys) ↔ j ∈ m.keys) := by
  obtain ⟨hkn, hmn, hmem⟩ := h
  rw [OrderedHashMap.remove_in_keys]
  by_cases hc : m.containsKey k
  · rw [if_pos hc]
    refine ⟨rfl, hkn.erase k, ?_, ?_⟩
    · intro hin
      exact ((hkn.mem_erase_iff).mp hin).1 rfl
    · intro j hj
      constructor
      · intro hin
        exact ((hkn.mem_erase_iff).mp hin).2
      · intro hin
        exact (hkn.mem_erase_iff).mpr ⟨hj, hin⟩
  · rw [if_neg hc]
    refine ⟨rfl, hkn, ?_, fun j _ => Iff.rfl⟩
    intro hin
    exact hc ((hmem k).mp hin)

theorem ohmInv_push_front {K V : Type} [DecidableEq K] {m : OrderedHashMap K V}
    {k : K} {v : V} (h : OhmInv m) : OhmInv (m.push_front k v) := by
  obtain ⟨hmap, hnod, hnotin, hmem⟩ := rik_spec (k := k) h
  rw [OhmInv, OrderedHashMap.push_front]
  refine ⟨List.nodup_cons.mpr ⟨hnotin, hnod⟩, ?_, ?_⟩
  · show (akeys (OrderedHashMap.mapInsert k v (m.remove_in_keys k).map)).Nodup
    rw [hmap]
    exact akeys_mapInsert_nodup h.2.1
  · intro j
    show j ∈ k :: (m.remove_in_keys k).keys ↔
      (alookup j (OrderedHashMap.mapInsert k v (m.remove_in_keys k).map)).isSome
    rw [List.mem_cons, alookup_mapInsert_isSome, hmap]
    by_cases hj : j = k
    · simp [hj]
    · rw [hmem j hj]
      have := h.2.2 j
      tauto

theorem ohmInv_push_back {K V : Type} [DecidableEq K] {m : OrderedHashMap K V}
    {k : K} {v : V} (h : OhmInv m) : OhmInv (m.push_back k v) := by
  obtain ⟨hmap, hnod, hnotin, hmem⟩ := rik_spec (k := k) h
  rw [OhmInv, OrderedHashMap.push_back]
  refine ⟨?_, ?_, ?_⟩
  · refine List.Nodup.append hnod (List.nodup_singleton k) ?_
    intro a ha hb
    rcases List.mem_singleton.mp hb with rfl
    exact hnotin ha
  · show (akeys (OrderedHashMap.mapInsert k v (m.remove_in_keys k).map)).Nodup
    rw [hmap]
    exact akeys_mapInsert_nodup h.2.1
  · intro j
    show j ∈ (m.remove_in_keys k).keys ++ [k] ↔
      (alookup j (OrderedHashMap.mapInsert k v (m.remove_in_keys k).map)).isSome
    rw [List.mem_append, List.mem_singleton, alookup_mapInsert_isSome, hmap]
    by_cases hj : j = k
    · simp [hj]
    · rw [hmem j hj]
      have := h.2.2 j
      tauto

theorem ohmInv_insertAt {K V : Type} [DecidableEq K] {m m' : OrderedHashMap K V}
    {index : Nat} {k : K} {v : V} (h : OhmInv m)
    (happ : m.insertAt index k v = some m') : OhmInv m' := by
  obtain ⟨hmap, hnod, hnotin, hmem⟩ := rik_spec (k := k) h
  rw [OrderedHashMap.insertAt] at happ
  by_cases hidx : index ≤ (m.remove_in_keys k).keys.length
  · rw [if_pos hidx] at happ
    injection happ with happ
    rw [← happ, OhmInv]
    have hperm := insertIdx_perm k index (m.remove_in_keys k).keys hidx
    refine ⟨hperm.nodup_iff.mpr (List.nodup_cons.mpr ⟨hnotin, hnod⟩), ?_, ?_⟩
    · show (akeys (OrderedHashMap.mapInsert k v (m.remove_in_keys k).map)).Nodup
      rw [hmap]
      exact akeys_mapInsert_nodup h.2.1
    · intro j
      show j ∈ (m.remove_in_keys k).keys.insertIdx index k ↔
        (alookup j (OrderedHashMap.mapInsert k v (m.remove_in_keys k).map)).isSome
      rw [hperm.mem_iff, List.mem_cons, alookup_mapInsert_isSome, hmap]
      by_cases hj : j = k
      · simp [hj]
      · rw [hmem j hj]
        have := h.2.2 j
        tauto
  · rw [if_neg hidx] at happ
    cases happ

theorem ohmInv_pop_front {K V : Type} [DecidableEq K] {m : OrderedHashMap K V}
    (h : OhmInv m) : OhmInv (m.pop_front).1 := by
  obtain ⟨hkn, hmn, hmem⟩ := h
  cases hks : m.keys with
  | nil =>
    have hpf : m.pop_front = (m, none) := by
      rw [OrderedHashMap.pop_front.eq_def, hks]
    rw [hpf]
    exact ⟨hkn, hmn, hmem⟩
  | cons k rest =>
    have hpf : m.pop_front = (⟨removeKey k m.map, rest⟩,
        (alookup k m.map).map (fun v => (k, v))) := by
      rw [OrderedHashMap.pop_front.eq_def, hks]
    rw [hpf]
    rw [hks, List.nodup_cons] at hkn
    refine ⟨hkn.2, ((removeKey_sublist k m.map).map Prod.fst).nodup hmn, ?_⟩
    intro j
    show j ∈ rest ↔ (alookup j (removeKey k m.map)).isSome
    rw [alookup_removeKey hmn k j]
    by_cases hj : j = k
    · subst hj
      simp only [if_pos rfl, Option.isSome_none]
      simp [hkn.1]
    · rw [if_neg hj]
      have hthis := hmem j
      rw [hks, List.mem_cons] at hthis
      rw [← hthis]
      tauto

theorem ohmInv_pop_back {K V : Type} [DecidableEq K] {m : OrderedHashMap K V}
    (h : OhmInv m) : OhmInv (m.pop_back).1 := by
  obtain ⟨hkn, hmn, hmem⟩ := h
  cases hks : m.keys.getLast? with
  | none =>
    have hpb : m.pop_back = (m, none) := by
      rw [OrderedHashMap.pop_back.eq_def, hks]
    rw [hpb]
    exact ⟨hkn, hmn, hmem⟩
  | some k =>
    have hpb : m.pop_back = (⟨removeKey k m.map, m.keys.dropLast⟩,
        (alookup k m.map).map (fun v => (k, v))) := by
      rw [OrderedHashMap.pop_back.eq_def, hks]
    rw [hpb]
    have hsplit : m.keys.dropLast ++ [k] = m.keys :=
      List.dropLast_append_getLast? k hks
    have hdnod : m.keys.dropLast.Nodup := by
      rw [← hsplit] at hkn
      exact hkn.of_append_left
    have hknot : k ∉ m.keys.dropLast := by
      rw [← hsplit] at hkn
      intro hin
      exact (List.disjoint_of_nodup_append hkn) hin (List.mem_singleton_self k)
    refine ⟨hdnod, ((removeKey_sublist k m.map).map Prod.fst).nodup hmn, ?_⟩
    intro j
    show j ∈ m.keys.dropLast ↔ (alookup j (removeKey k m.map)).isSome
    rw [alookup_removeKey hmn k j]
    by_cases hj : j = k
    · subst hj
      simp only [if_pos rfl, Option.isSome_none]
      simp [hknot]
    · have hmm : j ∈ m.keys ↔ j ∈ m.keys.dropLast ∨ j = k := by
        conv_lhs => rw [← hsplit]
        rw [List.mem_append, List.mem_singleton]
      rw [if_neg hj, ← hmem j, hmm]
      tauto

theorem ohmInv_remove {K V : Type} [DecidableEq K] {m : OrderedHashMap K V} {k : K}
    (h : OhmInv m) : OhmInv (m.remove k) := by
  obtain ⟨hkn, hmn, hmem⟩ := h
  rw [OrderedHashMap.remove]
  by_cases hp : (alookup k m.map).isSome
  · rw [if_pos hp]
    refine ⟨hkn.erase k, ((removeKey_sublist k m.map).map Prod.fst).nodup hmn, ?_⟩
    intro j
    show j ∈ m.keys.erase k ↔ (alookup j (removeKey k m.map)).isSome
    rw [alookup_removeKey hmn k j, hkn.mem_erase_iff]
    by_cases hj : j = k
    · subst hj
      simp only [if_pos rfl, Option.isSome_none]
      simp
    · rw [if_neg hj, ← hmem j]
      tauto
  · rw [if_neg hp]
    exact ⟨hkn, hmn, hmem⟩

theorem ohmInv_split_off {K V : Type} [DecidableEq K] {m m' : OrderedHashMap K V}
    {at_ : Nat} (h : OhmInv m) (happ : m.split_off at_ = some m') : OhmInv m' := by
  obtain ⟨hkn, hmn, hmem⟩ := h
  rw [OrderedHashMap.split_off] at happ
  by_cases hidx : at_ ≤ m.keys.length
  · rw [if_pos hidx] at happ
    injection happ with happ
    rw [← happ, OhmInv]
    have hsplit : m.keys.take at_ ++ m.keys.drop at_ = m.keys := List.take_append_drop _ _
    have htn : (m.keys.take at_).Nodup := by
      rw [← hsplit] at hkn
      exact hkn.of_append_left
    have hdisj : ∀ j, j ∈ m.keys.take at_ → j ∉ m.keys.drop at_ := by
      rw [← hsplit] at hkn
      exact fun j hj => (List.disjoint_of_nodup_append hkn) hj
    refine ⟨htn, ?_, ?_⟩
    · show (akeys ((m.keys.drop at_).foldl (fun acc k => removeKey k acc) m.map)).Nodup
      exact ((foldl_removeKey_sublist _ _).map Prod.fst).nodup hmn
    · intro j
      show j ∈ m.keys.take at_ ↔
        (alookup j ((m.keys.drop at_).foldl (fun acc k => removeKey k acc) m.map)).isSome
      rw [alookup_foldl_removeKey _ hmn]
      by_cases hjd : j ∈ m.keys.drop at_
      · rw [if_pos hjd]
        simp only [Option.isSome_none]
        constructor
        · intro hin
          exact absurd hjd (hdisj j hin)
        · intro hin
          cases hin
      · have hmm : j ∈ m.keys ↔ j ∈ m.keys.take at_ ∨ j ∈ m.keys.drop at_ := by
          conv_lhs => rw [← hsplit]
          rw [List.mem_append]
        rw [if_neg hjd, ← hmem j, hmm]
        tauto
  · rw [if_neg hidx] at happ
    cases happ

theorem ohmInv_applyOp {K V : Type} [DecidableEq K] {m m' : OrderedHashMap K V}
    {op : OhmOp K V} (h : OhmInv m) (happ : applyOhmOp m op = some m') : OhmInv m' := by
  cases op with
  | pushFront k v =>
    injection happ with happ
    exact happ ▸ ohmInv_push_front h
  | pushBack k v =>
    injection happ with happ
    exact happ ▸ ohmInv_push_back h
  | insertAt i k v => exact ohmInv_insertAt h happ
  | remove k =>
    injection happ with happ
    exact happ ▸ ohmInv_remove h
  | popFront =>
    injection happ with happ
    exact happ ▸ ohmInv_pop_front h
  | popBack =>
    injection happ with happ
    exact happ ▸ ohmInv_pop_back h
  | splitOff a => exact ohmInv_split_off h happ

/-- C9: starting from any `OrderedHashMap` satisfying the key invariant,
every (non-panicking) sequence of `push_front`, `push_back`, `insert`,
`remove`, `pop_front`, `pop_back` and `split_off` operations preserves it:
the keys deque never holds duplicate keys and always holds exactly the key
set of the backing map (a key already present is first removed from its
prior position, so no duplicate ever enters). -/
theorem claim_C9_ordered_map_invariant {K V : Type} [DecidableEq K]
    (m : OrderedHashMap K V) (ops : List (OhmOp K V)) (m' : OrderedHashMap K V)
    (hinv : OhmInv m) (happ : applyOhmOps m ops = some m') :
    m'.keys.Nodup ∧ ∀ k, k ∈ m'.keys ↔ (alookup k m'.map).isSome := by
  suffices h : OhmInv m' from ⟨h.1, h.2.2⟩
  induction ops generalizing m with
  | nil =>
    rw [applyOhmOps] at happ
    injection happ with happ
    exact happ ▸ hinv
  | cons op rest ih =>
    rw [applyOhmOps] at happ
    cases hop : applyOhmOp m op with
    | none => rw [hop] at happ; cases happ
    | some m1 =>
      rw [hop] at happ
      exact ih m1 (ohmInv_applyOp hinv hop) happ

/-- C9 witness: a concrete operation sequence exercising every operation —
including re-pushing an existing key, a positional insert and a split —
keeps the deque duplicate-free and synchronised with the map. -/
theorem claim_C9_ordered_map_invariant_witness :
    OhmInv (⟨[], []⟩ : OrderedHashMap Nat Nat) ∧
    applyOhmOps (⟨[], []⟩ : OrderedHashMap Nat Nat)
        [OhmOp.pushBack 1 10, OhmOp.pushBack 2 20, OhmOp.pushFront 1 11,
         OhmOp.insertAt 1 3 30, OhmOp.remove 2, OhmOp.pushBack 4 40,
         OhmOp.splitOff 2, OhmOp.popFront, OhmOp.popBack] =
      some ⟨[], []⟩ ∧
    ([] : List Nat).Nodup ∧
    (∀ k, k ∈ ([] : List Nat) ↔ (alookup k ([] : List (Nat × Nat))).isSome) := by
  have hinv : OhmInv (⟨[], []⟩ : OrderedHashMap Nat Nat) := by
    refine ⟨List.nodup_nil, List.nodup_nil, ?_⟩
    intro k
    simp [alookup]
  have happ : applyOhmOps (⟨[], []⟩ : OrderedHashMap Nat Nat)
      [OhmOp.pushBack 1 10, OhmOp.pushBack 2 20, OhmOp.pushFront 1 11,
       OhmOp.insertAt 1 3 30, OhmOp.remove 2, OhmOp.pushBack 4 40,
       OhmOp.splitOff 2, OhmOp.popFront, OhmOp.popBack] =
      some ⟨[], []⟩ := by decide
  exact ⟨hinv, happ,
    (claim_C9_ordered_map_invariant _ _ _ hinv happ).1,
    (claim_C9_ordered_map_invariant _ _ _ hinv happ).2⟩

/-! ## C7: persistence — decode/encode round trips -/

theorem leBytesToNat_natToLEBytes :
    ∀ (k n : Nat), n < 256 ^ k → leBytesToNat (natToLEBytes k n) = n
  | 0, n, h => by
    simp only [natToLEBytes, leBytesToNat]
    omega
  | k + 1, n, h => by
    rw [natToLEBytes, leBytesToNat,
      leBytesToNat_natToLEBytes k (n / 256)
        (Nat.div_lt_of_lt_mul (by rw [Nat.mul_comm, ← pow_succ] ; exact h))]
    omega

theorem encodeUVarint_cons (n : Nat) :
    ∃ b t, encodeUVarint n = b :: t ∧ (b = n ∨ 251 ≤ b) := by
  rw [encodeUVarint]
  by_cases h1 : n < 251
  · rw [if_pos h1]
    exact ⟨n, [], rfl, Or.inl rfl⟩
  · rw [if_neg h1]
    by_cases h2 : n < 2 ^ 16
    · rw [if_pos h2]
      exact ⟨251, _, rfl, Or.inr (by omega)⟩
    · rw [if_neg h2]
      by_cases h3 : n < 2 ^ 32
      · rw [if_pos h3]
        exact ⟨252, _, rfl, Or.inr (by omega)⟩
      · rw [if_neg h3]
        exact ⟨253, _, rfl, Or.inr (by omega)⟩

theorem encodeUVarint_length_pos (n : Nat) : 1 ≤ (encodeUVarint n).length := by
  obtain ⟨b, t, he, _⟩ := encodeUVarint_cons n
  rw [he]
  simp

theorem decodeUVarint_encodeUVarint {n : Nat} (h : n < 2 ^ 64) (rest : List Nat) :
    decodeUVarint (encodeUVarint n ++ rest) = some (n, rest) := by
  rw [encodeUVarint]
  by_cases h1 : n < 251
  · rw [if_pos h1, List.singleton_append, decodeUVarint.eq_def]
    dsimp only
    rw [if_pos h1]
  · rw [if_neg h1]
    by_cases h2 : n < 2 ^ 16
    · rw [if_pos h2]
      rw [show natToLEBytes 2 n = [n % 256, n / 256 % 256] from rfl]
      rw [List.cons_append, List.cons_append, List.cons_append, List.nil_append,
        decodeUVarint.eq_def]
      dsimp only
      rw [if_neg (by omega), if_pos rfl]
      rw [show leBytesToNat [n % 256, n / 256 % 256] = n from by
        rw [show [n % 256, n / 256 % 256] = natToLEBytes 2 n from rfl]
        exact leBytesToNat_natToLEBytes 2 n (by omega)]
    · rw [if_neg h2]
      by_cases h3 : n < 2 ^ 32
      · rw [if_pos h3]
        rw [show natToLEBytes 4 n =
          [n % 256, n / 256 % 256, n / 256 / 256 % 256, n / 256 / 256 / 256 % 256] from rfl]
        rw [List.cons_append, List.cons_append, List.cons_append, List.cons_append,
          List.cons_append, List.nil_append, decodeUVarint.eq_def]
        dsimp only
        rw [if_neg (by omega), if_neg (by omega), if_pos rfl]
        rw [show leBytesToNat
            [n % 256, n / 256 % 256, n / 256 / 256 % 256, n / 256 / 256 / 256 % 256] = n from by
          rw [show [n % 256, n / 256 % 256, n / 256 / 256 % 256, n / 256 / 256 / 256 % 256] =
            natToLEBytes 4 n from rfl]
          exact leBytesToNat_natToLEBytes 4 n (by omega)]
      · rw [if_neg h3]
        rw [show natToLEBytes 8 n =
          [n % 256, n / 256 % 256, n / 256 / 256 % 256, n / 256 / 256 / 256 % 256,
           n / 256 / 256 / 256 / 256 % 256, n / 256 / 256 / 256 / 256 / 256 % 256,
           n / 256 / 256 / 256 / 256 / 256 / 256 % 256,
           n / 256 / 256 / 256 / 256 / 256 / 256 / 256 % 256] from rfl]
        rw [List.cons_append, List.cons_append, List.cons_append, List.cons_append,
          List.cons_append, List.cons_append, List.cons_append, List.cons_append,
          List.cons_append, List.nil_append, decodeUVarint.eq_def]
        dsimp only
        rw [if_neg (by omega), if_neg (by omega), if_neg (by omega), if_pos rfl]
        rw [show leBytesToNat
            [n % 256, n / 256 % 256, n / 256 / 256 % 256, n / 256 / 256 / 256 % 256,
             n / 256 / 256 / 256 / 256 % 256, n / 256 / 256 / 256 / 256 / 256 % 256,
             n / 256 / 256 / 256 / 256 / 256 / 256 % 256,
             n / 256 / 256 / 256 / 256 / 256 / 256 / 256 % 256] = n from by
          rw [show [n % 256, n / 256 % 256, n / 256 / 256 % 256, n / 256 / 256 / 256 % 256,
             n / 256 / 256 / 256 / 256 % 256, n / 256 / 256 / 256 / 256 / 256 % 256,
             n / 256 / 256 / 256 / 256 / 256 / 256 % 256,
             n / 256 / 256 / 256 / 256 / 256 / 256 / 256 % 256] = natToLEBytes 8 n from rfl]
          exact leBytesToNat_natToLEBytes 8 n (by omega)]

theorem decodeByteSeq_encodeBytes {b : List Nat} (h : b.length < 2 ^ 64) (rest : List Nat) :
    decodeByteSeq (encodeBytes b ++ rest) = some (b, rest) := by
  rw [encodeBytes, List.append_assoc, decodeByteSeq,
    decodeUVarint_encodeUVarint h (b ++ rest)]
  dsimp only
  rw [if_pos (by simp)]
  rw [List.take_left, List.drop_left]

theorem decodeDataEntries_roundtrip :
    ∀ (d : List (Str × List Nat)) (rest : List Nat),
      (∀ p ∈ d, p.1.length < 2 ^ 64 ∧ p.2.length < 2 ^ 64) →
      decodeDataEntries d.length
          ((d.map (fun p => encodeBytes p.1 ++ encodeBytes p.2)).flatten ++ rest) =
        some (d, rest)
  | [], rest, _ => by simp [decodeDataEntries]
  | p :: d', rest, hb => by
    obtain ⟨k, v⟩ := p
    have hk := (hb (k, v) (List.mem_cons_self _ _)).1
    have hv := (hb (k, v) (List.mem_cons_self _ _)).2
    rw [List.length_cons, List.map_cons, List.flatten_cons, decodeDataEntries]
    rw [List.append_assoc, List.append_assoc, decodeByteSeq_encodeBytes hk]
    dsimp only
    rw [decodeByteSeq_encodeBytes hv]
    dsimp only
    rw [decodeDataEntries_roundtrip d' rest (fun q hq => hb q (List.mem_cons_of_mem _ hq))]

theorem decodeDataMap_encodeData {d : SelectionData}
    (hs : ASorted bytesLt d) (hlen : d.length < 2 ^ 64)
    (hb : ∀ p ∈ d, p.1.length < 2 ^ 64 ∧ p.2.length < 2 ^ 64) (rest : List Nat) :
    decodeDataMap (encodeData d ++ rest) = some (d, rest) := by
  rw [encodeData, List.append_assoc, decodeDataMap,
    decodeUVarint_encodeUVarint hlen]
  dsimp only
  rw [decodeDataEntries_roundtrip d rest hb]
  dsimp only
  rw [show d.foldl (fun acc p => btreeInsert p.1 p.2 acc) [] = [] ++ d from
    foldl_sortedInsert_of_asorted bytesLt_irrefl bytesLt_trans (by simpa using hs)]
  rw [List.nil_append]

theorem decodeItem_encodeItem {i : SelectionItem} (hwf : WfItem i) (rest : List Nat) :
    decodeItem (encodeItem i ++ rest) = some (i, rest) := by
  obtain ⟨hid, hs, _, hlen, hb⟩ := hwf
  rw [encodeItem, List.append_assoc, decodeItem, decodeUVarint_encodeUVarint hid]
  dsimp only
  rw [decodeDataMap_encodeData hs hlen (fun p hp => ⟨(hb p hp).1, (hb p hp).2.1⟩) rest]

theorem decodeItemEntries_roundtrip :
    ∀ (items : List SelectionItem) (rest : List Nat),
      (∀ i ∈ items, WfItem i) →
      decodeItemEntries items.length ((items.map encodeItem).flatten ++ rest) =
        some (items, rest)
  | [], rest, _ => by simp [decodeItemEntries]
  | i :: items', rest, hwf => by
    rw [List.length_cons, List.map_cons, List.flatten_cons, decodeItemEntries,
      List.append_assoc, decodeItem_encodeItem (hwf i (List.mem_cons_self _ _))]
    dsimp only
    rw [decodeItemEntries_roundtrip items' rest (fun j hj => hwf j (List.mem_cons_of_mem _ hj))]

theorem decodeItemsList_encodeLegacy {items : List SelectionItem}
    (hwf : ∀ i ∈ items, WfItem i) (hlen : items.length < 2 ^ 64) :
    decodeItemsList (encodeLegacy items) = some (items, []) := by
  rw [encodeLegacy, decodeItemsList, decodeUVarint_encodeUVarint hlen]
  dsimp only
  rw [show (items.map encodeItem).flatten = (items.map encodeItem).flatten ++ [] by simp]
  exact decodeItemEntries_roundtrip items [] hwf

theorem alookup_append {K V : Type} [DecidableEq K] (j : K) :
    ∀ (l1 l2 : List (K × V)), alookup j (l1 ++ l2) = (alookup j l1).or (alookup j l2)
  | [], l2 => by simp [alookup]
  | (k, v) :: rest, l2 => by
    by_cases hj : j = k
    · rw [List.cons_append, alookup, if_pos hj, alookup, if_pos hj]
      rfl
    · rw [List.cons_append, alookup, if_neg hj, alookup, if_neg hj, alookup_append j rest l2]

theorem foldl_push_back_go :
    ∀ (items : List SelectionItem) (m : OrderedHashMap Nat SelectionItem),
      (∀ i ∈ items, alookup i.id m.map = none) →
      (items.map SelectionItem.id).Nodup →
      items.foldl (fun m i => m.push_back i.id i) m =
        ⟨m.map ++ items.map (fun i => (i.id, i)), m.keys ++ items.map SelectionItem.id⟩
  | [], m, _, _ => by simp
  | i :: rest, m, habs, hnd => by
    rw [List.foldl_cons]
    have habsi := habs i (List.mem_cons_self _ _)
    have hstep : m.push_back i.id i =
        ⟨m.map ++ [(i.id, i)], m.keys ++ [i.id]⟩ := by
      rw [OrderedHashMap.push_back, OrderedHashMap.remove_in_keys]
      rw [if_neg (by rw [OrderedHashMap.containsKey, habsi]; simp)]
      rw [OrderedHashMap.mapInsert, if_neg (by rw [habsi]; simp)]
    rw [hstep]
    rw [List.map_cons, List.nodup_cons] at hnd
    rw [foldl_push_back_go rest ⟨m.map ++ [(i.id, i)], m.keys ++ [i.id]⟩ ?_ hnd.2]
    · simp
    · intro j hj
      show alookup j.id (m.map ++ [(i.id, i)]) = none
      rw [alookup_append, habs j (List.mem_cons_of_mem _ hj)]
      have hne : j.id ≠ i.id := by
        intro hc
        exact hnd.1 (hc ▸ List.mem_map_of_mem SelectionItem.id hj)
      rw [alookup, if_neg hne]
      rfl

theorem decode_version_1_encodeLegacy {items : List SelectionItem}
    (hwf : ∀ i ∈ items, WfItem i) (hlen : items.length < 2 ^ 64)
    (hnd : (items.map SelectionItem.id).Nodup) :
    decode_version_1 (encodeLegacy items) =
      some (⟨items.map (fun i => (i.id, i)), items.map SelectionItem.id⟩,
        SelectionMetadata.default) := by
  rw [decode_version_1, decodeItemsList_encodeLegacy hwf hlen]
  dsimp only
  rw [show OrderedHashMap.empty = (⟨[], []⟩ : OrderedHashMap Nat SelectionItem) from rfl]
  rw [foldl_push_back_go items ⟨[], []⟩ (fun i _ => rfl) hnd]
  rfl

theorem encodeLegacy_length_ge_four {items : List SelectionItem}
    (hne : items ≠ []) (hwf : ∀ i ∈ items, WfItem i) :
    4 ≤ (encodeLegacy items).length := by
  obtain ⟨i, rest, rfl⟩ : ∃ i rest, items = i :: rest := by
    cases items with
    | nil => exact absurd rfl hne
    | cons i rest => exact ⟨i, rest, rfl⟩
  obtain ⟨_, _, hdne, _, hb⟩ := hwf i (List.mem_cons_self _ _)
  obtain ⟨p, d', hd⟩ : ∃ p d', i.data = p :: d' := by
    cases hdata : i.data with
    | nil => exact absurd hdata hdne
    | cons p d' => exact ⟨p, d', rfl⟩
  have hvne : p.2 ≠ [] := (hb p (by rw [hd]; exact List.mem_cons_self _ _)).2.2
  have hvlen : 1 ≤ p.2.length := by
    cases hv : p.2 with
    | nil => exact absurd hv hvne
    | cons a t => simp
  rw [encodeLegacy, List.length_append, List.map_cons, List.flatten_cons, List.length_append,
    encodeItem, List.length_append, encodeData, hd, List.length_append, List.map_cons,
    List.flatten_cons, List.length_append, List.length_append, encodeBytes,
    List.length_append]
  have h1 := encodeUVarint_length_pos (i :: rest).length
  have h2 := encodeUVarint_length_pos i.id
  have h3 := encodeUVarint_length_pos (p :: d').length
  have h4 := encodeUVarint_length_pos p.1.length
  have h5 : 1 + p.2.length ≤ (encodeBytes p.2).length := by
    rw [encodeBytes, List.length_append]
    have := encodeUVarint_length_pos p.2.length
    omega
  omega

theorem leBytesToNat_cons_eq_two {b : Nat} {rest : List Nat}
    (h : leBytesToNat (b :: rest) = 2) : b = 2 ∧ leBytesToNat rest = 0 := by
  rw [leBytesToNat] at h
  omega

theorem leBytesToNat_cons_eq_zero {b : Nat} {rest : List Nat}
    (h : leBytesToNat (b :: rest) = 0) : b = 0 ∧ leBytesToNat rest = 0 := by
  rw [leBytesToNat] at h
  omega

theorem legacy_version_ne_two {items : List SelectionItem}
    (hne : items ≠ []) (hwf : ∀ i ∈ items, WfItem i) :
    leBytesToNat ((encodeLegacy items).take 4) ≠ 2 := by
  obtain ⟨i, rest, rfl⟩ : ∃ i rest, items = i :: rest := by
    cases items with
    | nil => exact absurd rfl hne
    | cons i rest => exact ⟨i, rest, rfl⟩
  obtain ⟨_, _, hdne, _, _⟩ := hwf i (List.mem_cons_self _ _)
  intro hv
  rw [encodeLegacy] at hv
  obtain ⟨b0, t0, he0, hb0⟩ := encodeUVarint_cons (i :: rest).length
  rw [he0, List.cons_append, List.take_succ_cons] at hv
  obtain ⟨hb02, hrest0⟩ := leBytesToNat_cons_eq_two hv
  -- the item count must be 2
  have hlen2 : (i :: rest).length = 2 := by
    rcases hb0 with rfl | hge
    · exact hb02
    · omega
  have ht0 : t0 = [] := by
    have : encodeUVarint (i :: rest).length = [2] := by
      rw [hlen2]
      rfl
    rw [this] at he0
    injection he0 with _ h
    exact h.symm
  rw [ht0, List.nil_append, List.map_cons, List.flatten_cons, encodeItem,
    List.append_assoc] at hrest0
  -- the first item id's first varint byte must be 0, so the id is 0
  obtain ⟨b1, t1, he1, hb1⟩ := encodeUVarint_cons i.id
  rw [he1, List.cons_append, List.take_succ_cons] at hrest0
  obtain ⟨hb10, hrest1⟩ := leBytesToNat_cons_eq_zero hrest0
  have hid0 : i.id = 0 := by
    rcases hb1 with rfl | hge
    · exact hb10
    · omega
  have ht1 : t1 = [] := by
    have : encodeUVarint i.id = [0] := by
      rw [hid0]
      rfl
    rw [this] at he1
    injection he1 with _ h
    exact h.symm
  rw [ht1, List.nil_append, encodeData, List.append_assoc] at hrest1
  -- the data-map count's first varint byte must be 0, but the map is non-empty
  obtain ⟨b2, t2, he2, hb2⟩ := encodeUVarint_cons i.data.length
  rw [he2, List.cons_append, List.take_succ_cons] at hrest1
  obtain ⟨hb20, _⟩ := leBytesToNat_cons_eq_zero hrest1
  have hdlen : 1 ≤ i.data.length := by
    cases hdata : i.data with
    | nil => exact absurd hdata hdne
    | cons p d' => simp
  rcases hb2 with rfl | hge
  · omega
  · omega

/-- C7 counterexample: the legacy encoding of the *empty* item sequence is
the single byte `[0]`, which is shorter than the 4-byte version header, so
`load_selection_data` fails instead of loading an empty keyed history — the
claim as stated does not hold for every legacy file. -/
theorem claim_C7_counterexample :
    encodeLegacy ([] : List SelectionItem) = [0] ∧
    load_selection_data (encodeLegacy ([] : List SelectionItem)) = Except.error () :=
  ⟨rfl, rfl⟩

/-- C7 (amended): (1) `load_selection_data` first attempts the versioned
decode: whenever the version field reads 2 and the version-2 decode of the
remaining bytes succeeds, its result is returned and the legacy decoder is
never consulted; (2) a file containing only the legacy pre-version encoding
of a *non-empty*, well-formed sequence of items (distinct `u64` ids,
non-empty sorted data maps) loads through the legacy fallback into a keyed
history whose keys follow the original sequence order, keyed by each item's
id.  (The empty legacy file is 1 byte and fails the version-header read.) -/
theorem claim_C7_versioned_then_legacy :
    (∀ (bytes : List Nat) (x : OrderedHashMap Nat SelectionItem × SelectionMetadata)
        (r : List Nat),
      ¬ bytes.length < 4 →
      leBytesToNat (bytes.take 4) = 2 →
      decodeV2 (bytes.drop 4) = some (x, r) →
      load_selection_data bytes = Except.ok x) ∧
    (∀ items : List SelectionItem,
      items ≠ [] →
      (∀ i ∈ items, WfItem i) →
      items.length < 2 ^ 64 →
      (items.map SelectionItem.id).Nodup →
      load_selection_data (encodeLegacy items) =
        Except.ok (⟨items.map (fun i => (i.id, i)), items.map SelectionItem.id⟩,
          SelectionMetadata.default)) := by
  constructor
  · intro bytes x r h4 hver hdec
    rw [load_selection_data, if_neg h4]
    dsimp only
    rw [if_pos hver, hdec]
  · intro items hne hwf hlen hnd
    have h4 : ¬ (encodeLegacy items).length < 4 := by
      have := encodeLegacy_length_ge_four hne hwf
      omega
    rw [load_selection_data, if_neg h4]
    dsimp only
    rw [if_neg (legacy_version_ne_two hne hwf)]
    dsimp only
    rw [decode_version_1_encodeLegacy hwf hlen hnd]

/-- C7 witness: a concrete version-2 file (empty history) loads through the
versioned decoder; a concrete one-item legacy file loads through the
fallback, keyed by the item's id in order. -/
theorem claim_C7_versioned_then_legacy_witness :
    (¬ ([2, 0, 0, 0, 0, 0, 0] : List Nat).length < 4 ∧
      leBytesToNat (([2, 0, 0, 0, 0, 0, 0] : List Nat).take 4) = 2 ∧
      decodeV2 (([2, 0, 0, 0, 0, 0, 0] : List Nat).drop 4) =
        some (((⟨[], []⟩ : OrderedHashMap Nat SelectionItem), (⟨[]⟩ : SelectionMetadata)), []) ∧
      load_selection_data [2, 0, 0, 0, 0, 0, 0] =
        Except.ok ((⟨[], []⟩ : OrderedHashMap Nat SelectionItem), (⟨[]⟩ : SelectionMetadata))) ∧
    (([SelectionItem.mk 5 [([97], [1])]] : List SelectionItem) ≠ [] ∧
      (∀ i ∈ ([SelectionItem.mk 5 [([97], [1])]] : List SelectionItem), WfItem i) ∧
      load_selection_data (encodeLegacy [SelectionItem.mk 5 [([97], [1])]]) =
        Except.ok (⟨[(5, SelectionItem.mk 5 [([97], [1])])], [5]⟩,
          SelectionMetadata.default)) := by
  refine ⟨⟨by decide, by decide, by decide, ?_⟩, by decide, ?_, ?_⟩
  · exact claim_C7_versioned_then_legacy.1 [2, 0, 0, 0, 0, 0, 0]
      ((⟨[], []⟩ : OrderedHashMap Nat SelectionItem), (⟨[]⟩ : SelectionMetadata)) []
      (by decide) (by decide) (by decide)
  · intro i hi
    fin_cases hi
    decide
  · exact claim_C7_versioned_then_legacy.2 [SelectionItem.mk 5 [([97], [1])]]
      (by decide) (by intro i hi; fin_cases hi; decide) (by decide) (by decide)

/-! ## C8: `filter_mimes` determinism -/

theorem plainFold_cons_plain {a s : Nat} {m : Str} {rest : List (Nat × Str)}
    {p : Option (Nat × Str)} {ps : Nat} (hsc : plaintext_mime_score m = some s) :
    plainFold ((a, m) :: rest) p ps =
      if p.isNone || s > ps then plainFold rest (some (a, m)) s
      else plainFold rest p ps := by
  rw [plainFold.eq_def]
  dsimp only
  rw [hsc]

theorem plainFold_cons_notplain {a : Nat} {m : Str} {rest : List (Nat × Str)}
    {p : Option (Nat × Str)} {ps : Nat} (hsc : plaintext_mime_score m = none) :
    plainFold ((a, m) :: rest) p ps = plainFold rest p ps := by
  rw [plainFold.eq_def]
  dsimp only
  rw [hsc]

theorem imageFold_cons_plain {a : Nat} {m : Str} {rest : List (Nat × Str)}
    {i : Option (Nat × Str)} {is_ : Nat} {s : Nat}
    (hsc : plaintext_mime_score m = some s) :
    imageFold ((a, m) :: rest) i is_ = imageFold rest i is_ := by
  rw [imageFold.eq_def]
  dsimp only
  rw [hsc]

theorem imageFold_cons_image {a : Nat} {m : Str} {rest : List (Nat × Str)}
    {i : Option (Nat × Str)} {is_ : Nat}
    (hsc : plaintext_mime_score m = none) (him : is_image_mime m = true) :
    imageFold ((a, m) :: rest) i is_ =
      if i.isNone || image_mime_score m > is_ then imageFold rest (some (a, m)) (image_mime_score m)
      else imageFold rest i is_ := by
  rw [imageFold.eq_def]
  dsimp only
  rw [hsc]
  dsimp only
  rw [if_pos him]

theorem imageFold_cons_other {a : Nat} {m : Str} {rest : List (Nat × Str)}
    {i : Option (Nat × Str)} {is_ : Nat}
    (hsc : plaintext_mime_score m = none) (him : is_image_mime m = false) :
    imageFold ((a, m) :: rest) i is_ = imageFold rest i is_ := by
  rw [imageFold.eq_def]
  dsimp only
  rw [hsc]
  dsimp only
  rw [if_neg (by simp [him])]

theorem filterGo_cons_plain {a s : Nat} {m : Str} {rest filtered : List (Nat × Str)}
    {p : Option (Nat × Str)} {ps : Nat} {i : Option (Nat × Str)} {is_ : Nat}
    (hsc : plaintext_mime_score m = some s) :
    filterGo ((a, m) :: rest) filtered p ps i is_ =
      if p.isNone || s > ps then filterGo rest filtered (some (a, m)) s i is_
      else filterGo rest filtered p ps i is_ := by
  rw [filterGo.eq_def]
  dsimp only
  rw [hsc]

theorem filterGo_cons_image {a : Nat} {m : Str} {rest filtered : List (Nat × Str)}
    {p : Option (Nat × Str)} {ps : Nat} {i : Option (Nat × Str)} {is_ : Nat}
    (hsc : plaintext_mime_score m = none) (him : is_image_mime m = true) :
    filterGo ((a, m) :: rest) filtered p ps i is_ =
      if i.isNone || image_mime_score m > is_ then
        filterGo rest filtered p ps (some (a, m)) (image_mime_score m)
      else filterGo rest filtered p ps i is_ := by
  rw [filterGo.eq_def]
  dsimp only
  rw [hsc]
  dsimp only
  rw [if_pos him]

theorem filterGo_cons_other {a : Nat} {m : Str} {rest filtered : List (Nat × Str)}
    {p : Option (Nat × Str)} {ps : Nat} {i : Option (Nat × Str)} {is_ : Nat}
    (hsc : plaintext_mime_score m = none) (him : is_image_mime m = false)
    (hsen : m ≠ passwordSentinel) :
    filterGo ((a, m) :: rest) filtered p ps i is_ =
      filterGo rest (sortedInsert natLt a m filtered) p ps i is_ := by
  rw [filterGo.eq_def]
  dsimp only
  rw [hsc]
  dsimp only
  rw [if_neg (by simp [him]), if_neg hsen]

theorem isOtherMime_of_plain {m : Str} {s : Nat} (hsc : plaintext_mime_score m = some s) :
    isOtherMime m = false := by
  rw [isOtherMime, is_plaintext_mime, hsc]
  rfl

theorem isOtherMime_of_image {m : Str} (him : is_image_mime m = true) :
    isOtherMime m = false := by
  rw [isOtherMime, him]
  simp

theorem isOtherMime_of_other {m : Str} (hsc : plaintext_mime_score m = none)
    (him : is_image_mime m = false) (hsen : m ≠ passwordSentinel) :
    isOtherMime m = true := by
  rw [isOtherMime, is_plaintext_mime, hsc, him]
  simp [hsen]

theorem filterGo_decompose :
    ∀ (l filtered : List (Nat × Str)) (p : Option (Nat × Str)) (ps : Nat)
      (i : Option (Nat × Str)) (is_ : Nat),
      (∀ a, (a, passwordSentinel) ∉ l) →
      filterGo l filtered p ps i is_ =
        insOpt (imageFold l i is_).1
          (insOpt (plainFold l p ps).1
            (insertAll filtered (l.filter (fun e => isOtherMime e.2))))
  | [], filtered, p, ps, i, is_, _ => rfl
  | (a, m) :: rest, filtered, p, ps, i, is_, hs => by
    have hsrest : ∀ a', (a', passwordSentinel) ∉ rest :=
      fun a' hc => hs a' (List.mem_cons_of_mem _ hc)
    have hmne : m ≠ passwordSentinel := fun hc => hs a (hc ▸ List.mem_cons_self _ _)
    cases hsc : plaintext_mime_score m with
    | some score =>
      have hfil : ((a, m) :: rest).filter (fun e => isOtherMime e.2) =
          rest.filter (fun e => isOtherMime e.2) := by
        simp [List.filter_cons, isOtherMime_of_plain hsc]
      rw [filterGo_cons_plain hsc, plainFold_cons_plain hsc, imageFold_cons_plain hsc, hfil]
      by_cases hcond : (p.isNone || decide (score > ps)) = true
      · simp only [if_pos hcond]
        exact filterGo_decompose rest filtered (some (a, m)) score i is_ hsrest
      · simp only [if_neg hcond]
        exact filterGo_decompose rest filtered p ps i is_ hsrest
    | none =>
      by_cases him : is_image_mime m
      · have hfil : ((a, m) :: rest).filter (fun e => isOtherMime e.2) =
            rest.filter (fun e => isOtherMime e.2) := by
          simp [List.filter_cons, isOtherMime_of_image him]
        rw [filterGo_cons_image hsc him, plainFold_cons_notplain hsc,
          imageFold_cons_image hsc him, hfil]
        by_cases hcond : (i.isNone || decide (image_mime_score m > is_)) = true
        · simp only [if_pos hcond]
          exact filterGo_decompose rest filtered p ps (some (a, m)) (image_mime_score m) hsrest
        · simp only [if_neg hcond]
          exact filterGo_decompose rest filtered p ps i is_ hsrest
      · have him' : is_image_mime m = false := by simpa using him
        have hfil : ((a, m) :: rest).filter (fun e => isOtherMime e.2) =
            (a, m) :: rest.filter (fun e => isOtherMime e.2) := by
          simp [List.filter_cons, isOtherMime_of_other hsc him' hmne]
        rw [filterGo_cons_other hsc him' hmne, plainFold_cons_notplain hsc,
          imageFold_cons_other hsc him', hfil]
        rw [show insertAll filtered ((a, m) :: rest.filter (fun e => isOtherMime e.2)) =
          insertAll (sortedInsert natLt a m filtered)
            (rest.filter (fun e => isOtherMime e.2)) from rfl]
        exact filterGo_decompose rest (sortedInsert natLt a m filtered) p ps i is_ hsrest

theorem image_not_plaintext {m : Str} (h : is_image_mime m = true) :
    plaintext_mime_score m = none := by
  rw [is_image_mime] at h
  obtain ⟨t, ht⟩ := List.isPrefixOf_iff_prefix.mp h
  rw [plaintext_mime_score, List.findIdx?_eq_none_iff]
  intro e he
  fin_cases he <;>
    (rw [eqIgnoreAsciiCase, ← ht, List.map_append,
      show (asciiBytes "image/").map asciiLower = [105, 109, 97, 103, 101, 47] from rfl]
     rfl)

theorem plainFold_noplain :
    ∀ {l : List (Nat × Str)}, (∀ e ∈ l, plaintext_mime_score e.2 = none) →
      ∀ (p : Option (Nat × Str)) (ps : Nat), plainFold l p ps = (p, ps)
  | [], _, _, _ => rfl
  | (a, m) :: rest, h, p, ps => by
    rw [plainFold_cons_notplain (h (a, m) (List.mem_cons_self _ _))]
    exact plainFold_noplain (fun e he => h e (List.mem_cons_of_mem _ he)) p ps

theorem imageFold_noimage :
    ∀ {l : List (Nat × Str)}, (∀ e ∈ l, is_image_mime e.2 = false) →
      ∀ (i : Option (Nat × Str)) (is_ : Nat), imageFold l i is_ = (i, is_)
  | [], _, _, _ => rfl
  | (a, m) :: rest, h, i, is_ => by
    have hrec := imageFold_noimage (fun e he => h e (List.mem_cons_of_mem _ he)) i is_
    cases hsc : plaintext_mime_score m with
    | some s => rw [imageFold_cons_plain hsc]; exact hrec
    | none =>
      rw [imageFold_cons_other hsc (h (a, m) (List.mem_cons_self _ _))]
      exact hrec

theorem plainFold_dominated :
    ∀ {l : List (Nat × Str)} {u : Nat × Str} {su : Nat},
      (∀ e ∈ l, ∀ s, plaintext_mime_score e.2 = some s → s ≤ su) →
      plainFold l (some u) su = (some u, su)
  | [], _, _, _ => rfl
  | (a, m) :: rest, u, su, h => by
    have hrec := @plainFold_dominated rest u su
      (fun e he s hs => h e (List.mem_cons_of_mem _ he) s hs)
    cases hsc : plaintext_mime_score m with
    | some s =>
      rw [plainFold_cons_plain hsc]
      rw [if_neg (by
        have := h (a, m) (List.mem_cons_self _ _) s hsc
        simp
        omega)]
      exact hrec
    | none => rw [plainFold_cons_notplain hsc]; exact hrec

theorem imageFold_dominated :
    ∀ {l : List (Nat × Str)} {u : Nat × Str} {su : Nat},
      (∀ e ∈ l, is_image_mime e.2 = true → image_mime_score e.2 ≤ su) →
      imageFold l (some u) su = (some u, su)
  | [], _, _, _ => rfl
  | (a, m) :: rest, u, su, h => by
    have hrec := @imageFold_dominated rest u su
      (fun e he hi => h e (List.mem_cons_of_mem _ he) hi)
    cases hsc : plaintext_mime_score m with
    | some s => rw [imageFold_cons_plain hsc]; exact hrec
    | none =>
      by_cases him : is_image_mime m
      · rw [imageFold_cons_image hsc him]
        rw [if_neg (by
          have hle : image_mime_score m ≤ su := h (a, m) (List.mem_cons_self _ _) him
          simp
          omega)]
        exact hrec
      · rw [imageFold_cons_other hsc (by simpa using him)]
        exact hrec

theorem plainFold_unique_max :
    ∀ {l : List (Nat × Str)} {u : Nat × Str} {su : Nat},
      u ∈ l → plaintext_mime_score u.2 = some su →
      (∀ e ∈ l, e ≠ u → ∀ s, plaintext_mime_score e.2 = some s → s < su) →
      ∀ (p : Option (Nat × Str)) (ps : Nat), (p = none ∨ ps < su) →
        (plainFold l p ps).1 = some u
  | (a, m) :: rest, u, su, hmem, hsu, hmax, p, ps, hinv => by
    by_cases heq : (a, m) = u
    · subst heq
      rw [plainFold_cons_plain hsu]
      rw [if_pos (by
        rcases hinv with h | h
        · subst h; rfl
        · simp [h])]
      rw [plainFold_dominated (fun e he s hs => by
        by_cases he' : e = (a, m)
        · subst he'
          rw [hs] at hsu
          exact Nat.le_of_eq (Option.some.inj hsu)
        · exact Nat.le_of_lt
            (hmax e (List.mem_cons_of_mem _ he) he' s hs))]
    · have hmem' : u ∈ rest := by
        rcases List.mem_cons.mp hmem with h | h
        · exact absurd h.symm heq
        · exact h
      have hmax' : ∀ e ∈ rest, e ≠ u → ∀ s, plaintext_mime_score e.2 = some s → s < su :=
        fun e he => hmax e (List.mem_cons_of_mem _ he)
      cases hsc : plaintext_mime_score m with
      | some s =>
        have hslt : s < su := hmax (a, m) (List.mem_cons_self _ _) heq s hsc
        rw [plainFold_cons_plain hsc]
        by_cases hcond : (p.isNone || decide (s > ps)) = true
        · rw [if_pos hcond]
          exact plainFold_unique_max hmem' hsu hmax' (some (a, m)) s (Or.inr hslt)
        · rw [if_neg hcond]
          exact plainFold_unique_max hmem' hsu hmax' p ps hinv
      | none =>
        rw [plainFold_cons_notplain hsc]
        exact plainFold_unique_max hmem' hsu hmax' p ps hinv

theorem imageFold_unique_max :
    ∀ {l : List (Nat × Str)} {u : Nat × Str},
      u ∈ l → is_image_mime u.2 = true →
      (∀ e ∈ l, e ≠ u → is_image_mime e.2 = true →
        image_mime_score e.2 < image_mime_score u.2) →
      ∀ (i : Option (Nat × Str)) (is_ : Nat),
        (i = none ∨ is_ < image_mime_score u.2) →
        (imageFold l i is_).1 = some u
  | (a, m) :: rest, u, hmem, hui, hmax, i, is_, hinv => by
    by_cases heq : (a, m) = u
    · subst heq
      rw [imageFold_cons_image (image_not_plaintext hui) hui]
      rw [if_pos (by
        rcases hinv with h | h
        · subst h; rfl
        · simp [h])]
      rw [imageFold_dominated (fun e he hi => by
        by_cases he' : e = (a, m)
        · subst he'; exact Nat.le_refl _
        · exact Nat.le_of_lt (hmax e (List.mem_cons_of_mem _ he) he' hi))]
    · have hmem' : u ∈ rest := by
        rcases List.mem_cons.mp hmem with h | h
        · exact absurd h.symm heq
        · exact h
      have hmax' : ∀ e ∈ rest, e ≠ u → is_image_mime e.2 = true →
          image_mime_score e.2 < image_mime_score u.2 :=
        fun e he => hmax e (List.mem_cons_of_mem _ he)
      cases hsc : plaintext_mime_score m with
      | some s =>
        rw [imageFold_cons_plain hsc]
        exact imageFold_unique_max hmem' hui hmax' i is_ hinv
      | none =>
        by_cases him : is_image_mime m
        · have hslt : image_mime_score m < image_mime_score u.2 :=
            hmax (a, m) (List.mem_cons_self _ _) heq him
          rw [imageFold_cons_image hsc him]
          by_cases hcond : (i.isNone || decide (image_mime_score m > is_)) = true
          · rw [if_pos hcond]
            exact imageFold_unique_max hmem' hui hmax' (some (a, m))
              (image_mime_score m) (Or.inr hslt)
          · rw [if_neg hcond]
            exact imageFold_unique_max hmem' hui hmax' i is_ hinv
        · rw [imageFold_cons_other hsc (by simpa using him)]
          exact imageFold_unique_max hmem' hui hmax' i is_ hinv

theorem insertAll_perm_eq {l1 l2 : List (Nat × Str)}
    (hn : (akeys l1).Nodup) (hp : l1.Perm l2) :
    insertAll [] l1 = insertAll [] l2 := by
  have hn2 : (akeys l2).Nodup := ((hp.map Prod.fst).nodup_iff).mp hn
  have hs1 : ASorted natLt (insertAll [] l1) :=
    asorted_foldl_sortedInsert natLt_total natLt_trans List.Pairwise.nil
  have hs2 : ASorted natLt (insertAll [] l2) :=
    asorted_foldl_sortedInsert natLt_total natLt_trans List.Pairwise.nil
  apply asorted_ext natLt_irrefl natLt_trans hs1 hs2
  intro j
  show alookup j (l1.foldl (fun f e => sortedInsert natLt e.1 e.2 f) []) =
    alookup j (l2.foldl (fun f e => sortedInsert natLt e.1 e.2 f) [])
  rw [alookup_foldl_sortedInsert hn, alookup_foldl_sortedInsert hn2, alookup_perm hn hp]

theorem plain_winner_eq {l1 l2 : List (Nat × Str)} (hp : l1.Perm l2)
    (hu : PlainMaxUnique l1) :
    (plainFold l1 none 0).1 = (plainFold l2 none 0).1 := by
  rcases hu with hno | ⟨u, hmem, hupl, hmax⟩
  · have h1 : ∀ e ∈ l1, plaintext_mime_score e.2 = none := fun e he => by
      have := hno e he
      rw [is_plaintext_mime] at this
      exact Option.not_isSome_iff_eq_none.mp (by simp [this])
    have h2 : ∀ e ∈ l2, plaintext_mime_score e.2 = none :=
      fun e he => h1 e (hp.mem_iff.mpr he)
    rw [plainFold_noplain h1, plainFold_noplain h2]
  · rw [is_plaintext_mime, Option.isSome_iff_exists] at hupl
    obtain ⟨su, hsu⟩ := hupl
    have hmax' : ∀ e ∈ l1, e ≠ u → ∀ s, plaintext_mime_score e.2 = some s → s < su := by
      intro e he hne s hs
      have := hmax e he hne (by rw [is_plaintext_mime, hs]; rfl)
      rwa [pscoreD, pscoreD, hs, hsu] at this
    rw [plainFold_unique_max hmem hsu hmax' none 0 (Or.inl rfl),
      plainFold_unique_max (hp.mem_iff.mp hmem) hsu
        (fun e he => hmax' e (hp.mem_iff.mpr he)) none 0 (Or.inl rfl)]

theorem image_winner_eq {l1 l2 : List (Nat × Str)} (hp : l1.Perm l2)
    (hu : ImageMaxUnique l1) :
    (imageFold l1 none 0).1 = (imageFold l2 none 0).1 := by
  rcases hu with hno | ⟨u, hmem, hui, hmax⟩
  · have h2 : ∀ e ∈ l2, is_image_mime e.2 = false :=
      fun e he => hno e (hp.mem_iff.mpr he)
    rw [imageFold_noimage hno, imageFold_noimage h2]
  · rw [imageFold_unique_max hmem hui hmax none 0 (Or.inl rfl),
      imageFold_unique_max (hp.mem_iff.mp hmem) hui
        (fun e he => hmax e (hp.mem_iff.mpr he)) none 0 (Or.inl rfl)]

/-- C8 counterexample: `filter_mimes` is not a function of the target *set*
alone. The set `{(1, "TEXT"), (2, "text")}` contains two distinct plaintext
MIME names with the same priority score (the table match is
case-insensitive), and the loop keeps the first one seen (`score >
plain_score` is strict), so two enumeration orders of the same set — i.e.
two iteration orders of the source `HashMap` — return different filtered
sets. -/
theorem claim_C8_counterexample :
    ([(1, asciiBytes "TEXT"), (2, asciiBytes "text")] : List (Nat × Str)).Perm
        [(2, asciiBytes "text"), (1, asciiBytes "TEXT")] ∧
    filter_mimes [(1, asciiBytes "TEXT"), (2, asciiBytes "text")] ≠
      filter_mimes [(2, asciiBytes "text"), (1, asciiBytes "TEXT")] := by
  constructor
  · decide
  · decide

/-- C8 (amended): `filter_mimes` is pure and, *provided the priority maxima
are tie-free*, a function of the target set alone. For any two enumerations
of the same duplicate-atom-free set of `(atom, MIME-name)` pairs that
contains no password sentinel, if no two distinct plaintext entries tie for
the top plaintext score and no two distinct image entries tie for the top
format score, then (1) both enumerations yield the same filtered map, and
(2) that map consists of exactly the single winning plaintext entry, the
single winning image entry, and all other MIMEs unchanged (the three parts
assembled into the canonical atom-sorted map). Without the tie-freedom
hypotheses the conclusion fails (`claim_C8_counterexample`). -/
theorem claim_C8_filter_determinism {l1 l2 : List (Nat × Str)}
    (hp : l1.Perm l2)
    (hnodup : (akeys l1).Nodup)
    (hsen : ∀ a, (a, passwordSentinel) ∉ l1)
    (hpl : PlainMaxUnique l1) (him : ImageMaxUnique l1) :
    filter_mimes l1 = filter_mimes l2 ∧
    filter_mimes l1 =
      insOpt (imageFold l1 none 0).1
        (insOpt (plainFold l1 none 0).1
          (insertAll [] (l1.filter (fun e => isOtherMime e.2)))) := by
  have hsen2 : ∀ a, (a, passwordSentinel) ∉ l2 :=
    fun a hc => hsen a (hp.mem_iff.mpr hc)
  have hd1 := filterGo_decompose l1 [] none 0 none 0 hsen
  have hd2 := filterGo_decompose l2 [] none 0 none 0 hsen2
  have hfn : (akeys (l1.filter (fun e => isOtherMime e.2))).Nodup :=
    List.Sublist.nodup ((List.filter_sublist l1).map Prod.fst) hnodup
  have hperm_f : (l1.filter (fun e => isOtherMime e.2)).Perm
      (l2.filter (fun e => isOtherMime e.2)) := hp.filter _
  constructor
  · rw [filter_mimes, filter_mimes, hd1, hd2,
      plain_winner_eq hp hpl, image_winner_eq hp him,
      insertAll_perm_eq hfn hperm_f]
  · rw [filter_mimes, hd1]

/-- Witness for C8: the spec's own example set in two discovery orders.
`text/plain;charset=utf-8` (score 6) beats `text/plain` (score 5),
`image/png` (format rank 2) beats `image/jpeg` (rank 1), and
`application/x-foo` passes through unchanged. -/
theorem claim_C8_filter_determinism_witness :
    filter_mimes c8L1 = filter_mimes c8L2 ∧
    filter_mimes c8L1 =
      insOpt (imageFold c8L1 none 0).1
        (insOpt (plainFold c8L1 none 0).1
          (insertAll [] (c8L1.filter (fun e => isOtherMime e.2)))) :=
  claim_C8_filter_determinism (by decide) (by decide)
    (fun a h =>
      absurd (show passwordSentinel ∈ List.map Prod.snd c8L1 from
        List.mem_map_of_mem Prod.snd h) (by decide))
    (by decide) (by decide)
